import Mathlib

/-!
# Verification of the pkgsense dependency-analysis core

Shallow embedding, in Lean 4, of the analysis core of the pkgsense
repository: the analysis orchestrator (`src/analyzers/manager.ts`),
the dependency-merge and conflict check
(`src/analyzers/dependencyGraphAnalyzer.ts`), the TTL + capacity cache
(`src/utils/cache.ts`), the token-bucket rate limiter
(`src/utils/rateLimiter.ts`), the semver helpers
(`src/utils/semverHelper.ts`, together with a model of the `semver` npm
library functions they call), and the retrying registry client
(`src/utils/npmRegistry.ts`).

Conventions: machine timestamps (`Date.now()`) are natural numbers in
milliseconds and are assumed nondecreasing across events, matching the
monotonicity of wall-clock time in the source's environment; fractional
token counts are rationals; JavaScript `Map` objects are association
lists in insertion order; asynchronous code is modelled by explicit
state passing over event sequences.
-/

set_option maxRecDepth 8000

namespace PkgSense

/-! ## Result (src/shared/result.ts)

`Result<T, E>` is the discriminated union `{success: true, data}` /
`{success: false, error}`. -/

/-- `Result<T,E>` from `src/shared/result.ts`. -/
inductive Result (T E : Type) where
  | success (data : T)
  | failure (error : E)
deriving DecidableEq, Repr

/-- `isSuccess` from `src/shared/result.ts`. -/
def Result.isSuccess {T E : Type} : Result T E → Bool
  | .success _ => true
  | .failure _ => false

/-! ## Findings and analyzers (src/types.ts, src/analyzers/types.ts) -/

/-- Severity levels of `src/types.ts` (`SEVERITY_LEVELS`). -/
inductive Severity where
  | info
  | warning
  | error
deriving DecidableEq, Repr

/-- `LineRange` from `src/analyzers/types.ts`. -/
structure LineRange where
  startLine : Nat
  startCharacter : Nat
  endLine : Nat
  endCharacter : Nat
deriving DecidableEq, Repr

/-- A diagnostic `Finding` (`src/types.ts`): severity, message, optional
related dependency, optional position, tags, and a metadata payload
modelled as a string-keyed record. -/
structure Finding where
  type : Severity
  message : String
  dependency : Option String
  range : Option LineRange
  tags : List String
  meta : List (String × String)
deriving DecidableEq, Repr

/-- `AnalyzerErrorCode` from `src/analyzers/types.ts`. -/
inductive AnalyzerErrorCode where
  | networkError
  | parseError
  | timeoutError
  | validationError
  | unknownError
deriving DecidableEq, Repr

/-- `AnalyzerError` from `src/analyzers/types.ts` (the optional `cause`
payload is opaque to the orchestrator and omitted). -/
structure AnalyzerError where
  code : AnalyzerErrorCode
  message : String
deriving DecidableEq, Repr

/-- `PackageJson` (`src/types.ts`), restricted to the fields the analysis
core reads; JS records are association lists in key order. -/
structure PackageJson where
  dependencies : List (String × String)
  devDependencies : List (String × String)
deriving DecidableEq, Repr

/-- `AnalysisContext` from `src/analyzers/types.ts`. -/
structure AnalysisContext where
  packageJson : PackageJson
  allDependencies : List (String × String)
  dependencyRanges : List (String × LineRange)
  workspacePath : String

/-- The settled outcome of one analyzer's `analyze(context)` promise, as
observed by `Promise.allSettled` in `AnalysisManager.runAnalyzers`:
fulfilled with a `Result`, or rejected with a thrown reason. -/
inductive SettledResult where
  | fulfilled (value : Result (List Finding) AnalyzerError)
  | rejected (reason : String)

/-- `Analyzer` from `src/analyzers/types.ts`: a named unit whose
`analyze(context)` settles to a `SettledResult`. -/
structure Analyzer where
  name : String
  analyze : AnalysisContext → SettledResult

/-- The findings an analyzer contributes to the merged list in
`AnalysisManager.runAnalyzers` (src/analyzers/manager.ts lines 255-272):
a fulfilled success pushes its findings, a fulfilled failure is logged
with `console.warn` and contributes nothing, a rejection is logged with
`console.error` and contributes nothing. -/
def settledFindings : SettledResult → List Finding
  | .fulfilled (.success fs) => fs
  | .fulfilled (.failure _) => []
  | .rejected _ => []

/-- True when the outcome is an explicit failure or a thrown rejection. -/
def failedOutcome : SettledResult → Bool
  | .fulfilled (.failure _) => true
  | .rejected _ => true
  | .fulfilled (.success _) => false

/-- `AnalysisManager.runAnalyzers` (src/analyzers/manager.ts lines
248-275): await all analyzers (`Promise.allSettled`), then push each
fulfilled success's findings, in analyzer order. -/
def runAnalyzers (analyzers : List Analyzer) (ctx : AnalysisContext) :
    List Finding :=
  analyzers.foldl (fun acc a => acc ++ settledFindings (a.analyze ctx)) []

/-! ## Dependency merge and conflict detection
(src/analyzers/manager.ts line 202, src/analyzers/dependencyGraphAnalyzer.ts) -/

/-- JS object/`Map` update: set `k` to `v`, in place when `k` is already
a key, appended otherwise. -/
def setKey {α : Type} : List (String × α) → String → α → List (String × α)
  | [], k, v => [(k, v)]
  | (k', v') :: rest, k, v =>
    if k' = k then (k, v) :: rest else (k', v') :: setKey rest k v

/-- First-occurrence association lookup (JS property read on a record
with unique keys, or `Map.get`). -/
def lookupKey {α : Type} : List (String × α) → String → Option α
  | [], _ => none
  | (k', v) :: rest, k => if k' = k then some v else lookupKey rest k

/-- JS `Map.delete`: remove the entry for `k`, keeping the order of the
remaining entries. -/
def eraseKey {α : Type} : List (String × α) → String → List (String × α)
  | [], _ => []
  | (k', v) :: rest, k => if k' = k then rest else (k', v) :: eraseKey rest k

/-- JS object spread `{ ...a, ...b }`: start from `a`, write each entry
of `b` in order; later writes to the same key win. This is how
`AnalysisManager.analyzeDocument` builds
`allDependencies = { ...json.dependencies, ...json.devDependencies }`
(src/analyzers/manager.ts line 202). -/
def spreadMerge (a b : List (String × String)) : List (String × String) :=
  b.foldl (fun acc kv => setKey acc kv.1 kv.2) a

/-- The warning finding `checkVersionConflicts` pushes for a package
present in both dependency sets with different ranges
(src/analyzers/dependencyGraphAnalyzer.ts lines 92-102). -/
def conflictFinding (name depVersion devDepVersion : String) : Finding where
  type := Severity.warning
  message := "Version conflict for \"" ++ name ++ "\": dependencies has "
    ++ depVersion ++ ", devDependencies has " ++ devDepVersion
    ++ ". This is likely a duplication error."
  dependency := some name
  range := none
  tags := ["dependencies", "duplication"]
  meta := [("dependencyVersion", depVersion),
           ("devDependencyVersion", devDepVersion)]

/-- `checkVersionConflicts` (src/analyzers/dependencyGraphAnalyzer.ts
lines 76-108): for each devDependency name also present in
dependencies, push a warning when the two ranges differ. -/
def checkVersionConflicts (deps devDeps : List (String × String)) :
    List Finding :=
  devDeps.foldl
    (fun findings kv =>
      match lookupKey deps kv.1 with
      | some depVersion =>
        if depVersion ≠ kv.2 then
          findings ++ [conflictFinding kv.1 depVersion kv.2]
        else findings
      | none => findings)
    []

/-! ## TTL + capacity cache (src/utils/cache.ts)

`Cache<T>` wraps a JS `Map<string, CacheEntry<T>>`; the `Map` is an
association list in insertion order. `Date.now()` is an explicit `now`
argument in milliseconds. -/

/-- `CacheEntry<T>` from `src/utils/cache.ts`: value plus absolute
expiry timestamp. -/
structure CacheEntry (T : Type) where
  value : T
  expiry : Nat

/-- The state of a `Cache<T>` instance: backing map, configured `ttl`
and `max`. -/
structure CacheState (T : Type) where
  entries : List (String × CacheEntry T)
  ttl : Nat
  max : Nat

/-- The `Cache` constructor with explicit options
(`new Cache({ ttl, max })`). -/
def Cache.mkCache (T : Type) (ttl max : Nat) : CacheState T :=
  ⟨[], ttl, max⟩

/-- `Cache.get` (src/utils/cache.ts lines 48-62): missing key returns
`undefined`; an entry with `now > expiry` is deleted and `undefined` is
returned; otherwise the value is returned. Returns the read result and
the possibly-updated state. -/
def Cache.get {T : Type} (c : CacheState T) (now : Nat) (key : String) :
    Option T × CacheState T :=
  match lookupKey c.entries key with
  | none => (none, c)
  | some entry =>
    if now > entry.expiry then
      (none, { c with entries := eraseKey c.entries key })
    else
      (some entry.value, c)

/-- `Cache.set` (src/utils/cache.ts lines 70-82): when the map already
holds `max` or more entries and `key` is genuinely new, the first
(oldest-inserted) key is deleted; then the entry for `key` is written
with expiry `now + ttl` (updating in place when `key` exists, appending
otherwise). -/
def Cache.set {T : Type} (c : CacheState T) (now : Nat) (key : String)
    (value : T) : CacheState T :=
  let afterEvict :=
    if c.max ≤ c.entries.length ∧ (lookupKey c.entries key).isNone then
      match c.entries with
      | [] => c.entries
      | (firstKey, _) :: _ => eraseKey c.entries firstKey
    else c.entries
  { c with entries := setKey afterEvict key ⟨value, now + c.ttl⟩ }

/-- `Cache.has` (src/utils/cache.ts lines 90-104): like `get` but
returning a boolean; an expired entry is deleted and reported absent. -/
def Cache.hasKey {T : Type} (c : CacheState T) (now : Nat) (key : String) :
    Bool × CacheState T :=
  match lookupKey c.entries key with
  | none => (false, c)
  | some entry =>
    if now > entry.expiry then
      (false, { c with entries := eraseKey c.entries key })
    else
      (true, c)

/-- `Cache.size` (src/utils/cache.ts lines 127-129). -/
def Cache.size {T : Type} (c : CacheState T) : Nat :=
  c.entries.length

/-- A sequence of `set` calls at time `t`, in list order. -/
def insertAll {T : Type} (c : CacheState T) (t : Nat)
    (kvs : List (String × T)) : CacheState T :=
  kvs.foldl (fun cc kv => Cache.set cc t kv.1 kv.2) c

/-! ## Token-bucket rate limiter (src/utils/rateLimiter.ts)

State of a `RateLimiter` instance; `tokens` is fractional (a JS
number), timestamps are `Date.now()` milliseconds, and the wait queue
is represented by its length (queued resolvers carry no data). -/

/-- `RateLimiterState`: the four mutable fields of the `RateLimiter`
class plus the immutable capacity. `refillRate` is not stored: the
constructor fixes it to `requestsPerMinute / 60000`, recovered by
`refillRate capacity`. -/
structure RLState where
  tokens : ℚ
  capacity : Nat
  lastRefill : Nat
  queueLen : Nat
deriving DecidableEq, Repr

/-- `this.refillRate = options.requestsPerMinute / 60000` (tokens per
millisecond). -/
def refillRate (capacity : Nat) : ℚ :=
  (capacity : ℚ) / 60000

/-- `new RateLimiter({ requestsPerMinute })` at time `now`: bucket
starts full. -/
def RateLimiter.init (requestsPerMinute now : Nat) : RLState :=
  ⟨(requestsPerMinute : ℚ), requestsPerMinute, now, 0⟩

/-- `RateLimiter.refill` (src/utils/rateLimiter.ts lines 38-45):
`tokens = min(capacity, tokens + elapsedMs * refillRate)`, then
`lastRefill = now`. `Date.now()` is nondecreasing, so `elapsedMs` is
the truncated subtraction `now - lastRefill`. -/
def RLState.refill (s : RLState) (now : Nat) : RLState :=
  { s with
    tokens := min (s.capacity : ℚ)
      (s.tokens + ((now - s.lastRefill : Nat) : ℚ) * refillRate s.capacity),
    lastRefill := now }

/-- The `while` loop of `RateLimiter.processQueue` (src/utils/rateLimiter.ts
lines 51-59) on `(queue.length, tokens)`: while the queue is nonempty and
`tokens >= 1`, consume one token and resolve the front waiter. Returns
the remaining queue length, the remaining tokens, and the number of
waiters resolved (admitted). -/
def processQueueLoop : Nat → ℚ → Nat × ℚ × Nat
  | 0, t => (0, t, 0)
  | n + 1, t =>
    if 1 ≤ t then
      let r := processQueueLoop n (t - 1)
      (r.1, r.2.1, r.2.2 + 1)
    else
      (n + 1, t, 0)

/-- `RateLimiter.acquire` (src/utils/rateLimiter.ts lines 67-90) at time
`now`: refill, then either consume a token and resolve immediately
(admitting 1), or join the wait queue (admitting 0). Returns the new
state and the number of admissions at time `now`. -/
def RLState.acquire (s : RLState) (now : Nat) : RLState × Nat :=
  let s1 := s.refill now
  if 1 ≤ s1.tokens then
    ({ s1 with tokens := s1.tokens - 1 }, 1)
  else
    ({ s1 with queueLen := s1.queueLen + 1 }, 0)

/-- One firing of the 100 ms `setInterval` callback inside `acquire`
(src/utils/rateLimiter.ts lines 80-88): refill, then process the queue.
Returns the new state and the number of waiters admitted at time `now`. -/
def RLState.tick (s : RLState) (now : Nat) : RLState × Nat :=
  let s1 := s.refill now
  let r := processQueueLoop s1.queueLen s1.tokens
  ({ s1 with queueLen := r.1, tokens := r.2.1 }, r.2.2)

/-- `Math.floor` on a nonnegative JS number. -/
def floorToNat (q : ℚ) : Nat :=
  (⌊q⌋).toNat

/-- `RateLimiter.availableTokens` (src/utils/rateLimiter.ts lines
97-100): refill, then report `Math.floor(tokens)`. Returns the reported
count and the refilled state. -/
def RLState.availableTokens (s : RLState) (now : Nat) : Nat × RLState :=
  let s1 := s.refill now
  (floorToNat s1.tokens, s1)

/-- `RateLimiter.reset` (src/utils/rateLimiter.ts lines 105-109). -/
def RLState.reset (s : RLState) (now : Nat) : RLState :=
  { s with tokens := (s.capacity : ℚ), lastRefill := now, queueLen := 0 }

/-- An observable event in a rate-limiter history: an `acquire()` call,
one timer tick of a queued `acquire`, or an `availableTokens()` read,
each stamped with its `Date.now()` value. -/
inductive RLOp where
  | acquire (now : Nat)
  | tick (now : Nat)
  | avail (now : Nat)
deriving DecidableEq, Repr

/-- The timestamp of an event. -/
def RLOp.time : RLOp → Nat
  | .acquire now => now
  | .tick now => now
  | .avail now => now

/-- Execute one event: the resulting state and the number of `acquire`
promises resolved (admissions) at the event's time. -/
def RLStep (s : RLState) : RLOp → RLState × Nat
  | .acquire now => s.acquire now
  | .tick now => s.tick now
  | .avail now => ((s.availableTokens now).2, 0)

/-- The admission trace of an event history: one `(time, admitted)`
record per event. -/
def admEvents : RLState → List RLOp → List (Nat × Nat)
  | _, [] => []
  | s, op :: rest =>
    let r := RLStep s op
    (op.time, r.2) :: admEvents r.1 rest

/-- Total admissions whose timestamps fall in the closed window
`[u, v]`. -/
def admissionsIn (evs : List (Nat × Nat)) (u v : Nat) : Nat :=
  ((evs.filter (fun e => decide (u ≤ e.1) && decide (e.1 ≤ v))).map
    Prod.snd).sum

/-! ## Semantic versions (src/utils/semverHelper.ts and the `semver`
npm library)

`semverHelper.ts` delegates to the `semver` package. The library
functions it calls (`coerce`, `valid`, `parse`, `gte`) are modelled
here from that package's documented strict grammar and comparison
rules; `getUpdateType` and `sanitizeVersion` themselves are translated
line by line from `src/utils/semverHelper.ts`. Strings are manipulated
as character lists. Build metadata never affects comparison and a
parsed version is kept as major/minor/patch plus prerelease
identifiers. -/

/-- A parsed semantic version (the fields of the library's `SemVer`
object that comparison reads). -/
structure SemVer where
  major : Nat
  minor : Nat
  patch : Nat
  prerelease : List String
deriving DecidableEq, Repr

/-- Decimal digit test (`[0-9]`, as in the semver grammar). -/
def isDigitChar (c : Char) : Bool :=
  c.isDigit

/-- Split a character list into its maximal leading digit run and the
rest. -/
def takeDigits : List Char → List Char × List Char
  | [] => ([], [])
  | c :: cs =>
    if isDigitChar c then
      let r := takeDigits cs
      (c :: r.1, r.2)
    else
      ([], c :: cs)

/-- Value of a decimal digit string. -/
def digitsToNat (ds : List Char) : Nat :=
  ds.foldl (fun n c => 10 * n + (c.toNat - 48)) 0

/-- `Number.MAX_SAFE_INTEGER`: the `SemVer` constructor rejects larger
numeric components. -/
def MAX_SAFE_INTEGER : Nat :=
  9007199254740991

/-- A numeric identifier has no leading zero (`0|[1-9]\d*`). -/
def noLeadingZero : List Char → Bool
  | [] => false
  | [_] => true
  | c :: _ :: _ => c ≠ '0'

/-- Strict numeric version component: nonempty digits, no leading zero,
at most `MAX_SAFE_INTEGER`. -/
def parseNumComponent (ds : List Char) : Option Nat :=
  if ds.isEmpty then none
  else if ds.all isDigitChar ∧ noLeadingZero ds ∧
      digitsToNat ds ≤ MAX_SAFE_INTEGER then
    some (digitsToNat ds)
  else none

/-- Characters allowed in prerelease/build identifiers
(`[0-9A-Za-z-]`). -/
def isIdentChar (c : Char) : Bool :=
  isDigitChar c || (c.isUpper || c.isLower) || c = '-'

/-- Valid prerelease identifier: nonempty, identifier characters, and
when purely numeric, no leading zero. -/
def validPreId (ds : List Char) : Bool :=
  !ds.isEmpty && ds.all isIdentChar &&
    (if ds.all isDigitChar then noLeadingZero ds else true)

/-- Valid build identifier: nonempty identifier characters. -/
def validBuildId (ds : List Char) : Bool :=
  !ds.isEmpty && ds.all isIdentChar

/-- Split a character list on a separator character. -/
def splitOnChar (sep : Char) : List Char → List (List Char)
  | [] => [[]]
  | c :: cs =>
    let r := splitOnChar sep cs
    if c = sep then [] :: r
    else
      match r with
      | [] => [[c]]
      | piece :: rest => (c :: piece) :: rest

/-- JS `String.prototype.trim` character class (ASCII whitespace
portion, which is all that version strings contain). -/
def isWS (c : Char) : Bool :=
  c = ' ' || c = '\t' || c = '\n' || c = '\r'

/-- Trim both ends of a character list. -/
def trimChars (cs : List Char) : List Char :=
  ((cs.dropWhile isWS).reverse.dropWhile isWS).reverse

/-- `semver.valid` / `semver.parse` (strict): after trimming and an
optional leading `v`, the string must be `major.minor.patch` with
strict numeric components, optionally `-prerelease` (dot-separated
identifiers; the first `-` starts the prerelease, later ones belong to
identifiers) and optionally `+build`. Both functions run the same
constructor; `valid` returns the normalized string of the same parse. -/
def semverParse (s : String) : Option SemVer :=
  let t := trimChars s.toList
  let t2 := match t with
    | 'v' :: rest => rest
    | other => other
  match splitOnChar '+' t2 with
  | [] => none
  | corePre :: buildParts =>
    if buildParts.length ≤ 1 ∧
        buildParts.all (fun b => (splitOnChar '.' b).all validBuildId) then
      match splitOnChar '-' corePre with
      | [] => none
      | core :: preParts =>
        match splitOnChar '.' core with
        | [ma, mi, pa] =>
          match parseNumComponent ma, parseNumComponent mi,
              parseNumComponent pa with
          | some major, some minor, some patch =>
            if preParts.isEmpty then
              some ⟨major, minor, patch, []⟩
            else
              let preIds := splitOnChar '.'
                ((preParts.intersperse ['-']).flatten)
              if preIds.all validPreId then
                some ⟨major, minor, patch,
                  preIds.map (fun ds => String.mk ds)⟩
              else none
          | _, _, _ => none
        | _ => none
    else none

/-- The result of the COERCE regex attempt at a position whose
predecessor is a non-digit (or the string start) and whose head is a
digit: the captured major/minor/patch digit runs. A run longer than the
regex's 16-digit bound fails the major group and, by backtracking,
silently drops a minor/patch group. -/
def coerceHere (cs : List Char) : Option (List Char × List Char × List Char) :=
  let r1 := takeDigits cs
  if r1.1.isEmpty || decide (16 < r1.1.length) then none
  else
    match r1.2 with
    | '.' :: cs2 =>
      let r2 := takeDigits cs2
      if r2.1.isEmpty || decide (16 < r2.1.length) then
        some (r1.1, ['0'], ['0'])
      else
        match r2.2 with
        | '.' :: cs3 =>
          let r3 := takeDigits cs3
          if r3.1.isEmpty || decide (16 < r3.1.length) then
            some (r1.1, r2.1, ['0'])
          else
            some (r1.1, r2.1, r3.1)
        | _ => some (r1.1, r2.1, ['0'])
    | _ => some (r1.1, ['0'], ['0'])

/-- Scan for the first position where the COERCE regex matches
(fuel-driven; the fuel is the remaining string length). -/
def coerceScanF : Nat → List Char → Option (List Char × List Char × List Char)
  | 0, _ => none
  | _ + 1, [] => none
  | fuel + 1, c :: cs =>
    if isDigitChar c then
      match coerceHere (c :: cs) with
      | some v => some v
      | none => coerceScanF fuel (takeDigits (c :: cs)).2
    else
      coerceScanF fuel cs

/-- `semver.coerce` (default options): find the first
`major[.minor[.patch]]` digit-run group in the string, then run the
strict constructor on `major.minor.patch`; leading zeros or components
above `MAX_SAFE_INTEGER` make the whole coercion return `null`. The
result is the normalized version string. -/
def semverCoerce (s : String) : Option (List Char) :=
  match coerceScanF s.length s.toList with
  | none => none
  | some (ma, mi, pa) =>
    match parseNumComponent ma, parseNumComponent mi, parseNumComponent pa with
    | some major, some minor, some patch =>
      some ((Nat.toDigits 10 major) ++ '.' :: (Nat.toDigits 10 minor)
        ++ '.' :: (Nat.toDigits 10 patch))
    | _, _, _ => none

/-- Three-way comparison result. -/
inductive Cmp where
  | lt
  | eq
  | gt
deriving DecidableEq, Repr

/-- Three-way comparison of naturals. -/
def cmpNat (a b : Nat) : Cmp :=
  if a < b then .lt else if a = b then .eq else .gt

/-- Three-way lexicographic string comparison (JS `<` on strings). -/
def cmpString (a b : String) : Cmp :=
  if a < b then .lt else if a = b then .eq else .gt

/-- `/^[0-9]+$/` test used by the library's `compareIdentifiers`. -/
def isNumericId (s : String) : Bool :=
  !s.toList.isEmpty && s.toList.all isDigitChar

/-- `compareIdentifiers`: numeric identifiers compare numerically and
rank below alphanumeric ones; alphanumeric identifiers compare as
strings. -/
def compareIdentifiers (a b : String) : Cmp :=
  if isNumericId a && isNumericId b then
    cmpNat (digitsToNat a.toList) (digitsToNat b.toList)
  else if isNumericId a then .lt
  else if isNumericId b then .gt
  else cmpString a b

/-- Element-wise prerelease identifier comparison once both lists are
known nonempty: an exhausted list ranks below a longer one. -/
def comparePreLists : List String → List String → Cmp
  | [], [] => .eq
  | [], _ :: _ => .lt
  | _ :: _, [] => .gt
  | a :: as, b :: bs =>
    match compareIdentifiers a b with
    | .eq => comparePreLists as bs
    | r => r

/-- `comparePre`: a version with prerelease identifiers ranks below the
same version without any. -/
def comparePrerelease : List String → List String → Cmp
  | [], [] => .eq
  | [], _ :: _ => .gt
  | _ :: _, [] => .lt
  | a :: as, b :: bs => comparePreLists (a :: as) (b :: bs)

/-- `semver.compare`: major, then minor, then patch, then prerelease. -/
def compareSemVer (a b : SemVer) : Cmp :=
  match cmpNat a.major b.major with
  | .eq =>
    match cmpNat a.minor b.minor with
    | .eq =>
      match cmpNat a.patch b.patch with
      | .eq => comparePrerelease a.prerelease b.prerelease
      | r => r
    | r => r
  | r => r

/-- `semver.gte`. -/
def semverGte (a b : SemVer) : Bool :=
  match compareSemVer a b with
  | .lt => false
  | _ => true

/-- `sanitizeVersion` (src/utils/semverHelper.ts lines 21-35): trim;
map the keywords `latest`, `next` and the empty string to `latest`;
strip everything before the first digit; coerce; fall back to the
trimmed input when coercion fails. -/
def sanitizeVersion (version : String) : String :=
  let sanitized := trimChars version.toList
  if sanitized = "latest".toList ∨ sanitized = "next".toList ∨ sanitized = [] then
    "latest"
  else
    let cleaned := sanitized.dropWhile (fun c => !isDigitChar c)
    match semverCoerce (String.mk cleaned) with
    | some coerced => String.mk coerced
    | none => String.mk sanitized

/-- `UpdateType` from `src/utils/semverHelper.ts`. -/
inductive UpdateType where
  | major
  | minor
  | patch
deriving DecidableEq, Repr

/-- `getUpdateType` (src/utils/semverHelper.ts lines 80-119): sanitize
and validate both versions (`semver.valid`, then `semver.parse` on the
same strings — one parse in the model since both run the identical
constructor); `null` when either is invalid or `current >= latest`;
otherwise the first of major/minor/patch where current's component is
smaller. -/
def getUpdateType (currentVersion latestVersion : String) : Option UpdateType :=
  match semverParse (sanitizeVersion currentVersion),
      semverParse (sanitizeVersion latestVersion) with
  | some current, some latest =>
    if semverGte current latest then none
    else if current.major < latest.major then some .major
    else if current.minor < latest.minor then some .minor
    else if current.patch < latest.patch then some .patch
    else none
  | _, _ => none

/-! ## Registry client (src/utils/npmRegistry.ts)

`fetchPackageMetadata` composes the cache and a retrying fetch loop.
The network is an oracle mapping the attempt index to that attempt's
outcome; `Date.now()` is an explicit `now`; the rate-limiter `acquire`
on the miss path suspends without changing the cache, so it does not
appear in the cache-and-result model. Response bodies are JSON
values. -/

/-- A JSON value as produced by `response.json()`. -/
inductive JsonValue where
  | null
  | bool (b : Bool)
  | num (val : Int)
  | str (s : String)
  | arr (elems : List JsonValue)
  | obj (fields : List (String × JsonValue))

/-- JS property read on a parsed JSON value (`undefined` for a missing
key is `none`). -/
def jlookup : List (String × JsonValue) → String → Option JsonValue
  | [], _ => none
  | (k, v) :: rest, key => if k = key then some v else jlookup rest key

/-- JS truthiness of a JSON value (`undefined` handled by the `Option`
at call sites). -/
def jsTruthy : JsonValue → Bool
  | .null => false
  | .bool b => b
  | .num val => val ≠ 0
  | .str s => s ≠ ""
  | .arr _ => true
  | .obj _ => true

/-- `typeof x === 'object' && x !== null` for a (possibly missing)
property value. -/
def isObjectNonNull : Option JsonValue → Bool
  | some (.obj _) => true
  | some (.arr _) => true
  | _ => false

/-- `isNpmPackageMetadata` (src/utils/npmRegistry.ts lines 37-51):
a non-null object whose `name` is a string and whose `versions` and
`dist-tags` are non-null objects. -/
def isNpmPackageMetadata : JsonValue → Bool
  | .obj fields =>
    (match jlookup fields "name" with
     | some (.str _) => true
     | _ => false)
    && isObjectNonNull (jlookup fields "versions")
    && isObjectNonNull (jlookup fields "dist-tags")
  | _ => false

/-- The outcome of one network attempt inside the retry loop: a
resolved response (`ok` body, or a non-2xx status), an `AbortError`
from the 5 s timeout, or another rejection of `fetch`. -/
inductive AttemptResult where
  | ok (body : JsonValue)
  | failStatus (status : Nat) (statusText : String)
  | timeoutAbort
  | fetchError (msg : String)

/-- The observable outcome of a `fetchPackageMetadata` call: the
returned `Result`, the number of network attempts made, the backoff
delays awaited between attempts (ms), and the cache state afterwards. -/
structure FetchOutcome where
  result : Result JsonValue String
  attemptsMade : Nat
  delays : List Nat
  cache : CacheState JsonValue

/-- `MAX_RETRIES` from src/utils/npmRegistry.ts. -/
def MAX_RETRIES : Nat := 3

/-- `RETRY_DELAY_MS` from src/utils/npmRegistry.ts. -/
def RETRY_DELAY_MS : Nat := 1000

/-- `delay(ms, attempt)` (src/utils/npmRegistry.ts lines 70-73) waits
`ms * 2 ** attempt` milliseconds. -/
def backoffMs (ms attempt : Nat) : Nat :=
  ms * 2 ^ attempt

/-- The `for (let attempt = 0; attempt < MAX_RETRIES; attempt++)` retry
loop of `fetchPackageMetadata` (src/utils/npmRegistry.ts lines
119-191). `remaining` is `MAX_RETRIES - attempt` and drives the
recursion; falling out of the loop returns the attempts-exhausted
failure. -/
def fetchLoop (oracle : Nat → AttemptResult) (name : String) (now : Nat) :
    (cache : CacheState JsonValue) → (attempt remaining made : Nat) →
    (delays : List Nat) → FetchOutcome
  | cache, _, 0, made, delays =>
    ⟨.failure ("Failed to fetch package metadata for " ++ name ++ " after "
        ++ toString MAX_RETRIES ++ " attempts"),
      made, delays, cache⟩
  | cache, attempt, r + 1, made, delays =>
    match oracle attempt with
    | .ok body =>
      if isNpmPackageMetadata body then
        ⟨.success body, made + 1, delays,
          Cache.set cache now ("metadata:" ++ name) body⟩
      else
        ⟨.failure ("Invalid metadata format for package " ++ name),
          made + 1, delays, cache⟩
    | .failStatus status statusText =>
      if status = 404 then
        ⟨.failure ("Package \"" ++ name ++ "\" not found in NPM registry"),
          made + 1, delays, cache⟩
      else if status = 429 then
        fetchLoop oracle name now cache (attempt + 1) r (made + 1)
          (delays ++ [backoffMs (RETRY_DELAY_MS * 2) attempt])
      else if attempt < MAX_RETRIES - 1 then
        fetchLoop oracle name now cache (attempt + 1) r (made + 1)
          (delays ++ [backoffMs RETRY_DELAY_MS attempt])
      else
        ⟨.failure ("HTTP " ++ toString status ++ ": " ++ statusText
            ++ " for package " ++ name),
          made + 1, delays, cache⟩
    | .timeoutAbort =>
      if attempt < MAX_RETRIES - 1 then
        fetchLoop oracle name now cache (attempt + 1) r (made + 1)
          (delays ++ [backoffMs RETRY_DELAY_MS attempt])
      else
        ⟨.failure ("Timeout: NPM registry did not respond within 5000ms for "
            ++ name),
          made + 1, delays, cache⟩
    | .fetchError msg =>
      if attempt < MAX_RETRIES - 1 then
        fetchLoop oracle name now cache (attempt + 1) r (made + 1)
          (delays ++ [backoffMs RETRY_DELAY_MS attempt])
      else
        ⟨.failure ("Error fetching NPM registry data for " ++ name ++ ": "
            ++ msg),
          made + 1, delays, cache⟩

/-- `fetchPackageMetadata` (src/utils/npmRegistry.ts lines 95-192):
validate the name, consult the cache (a truthy hit of valid shape
returns immediately with no attempt), acquire a rate-limit permit
(cache-neutral, not modelled further), then run the retry loop. -/
def fetchPackageMetadata (packageName : String)
    (cache : CacheState JsonValue) (now : Nat)
    (oracle : Nat → AttemptResult) : FetchOutcome :=
  if packageName = "" then
    ⟨.failure "Invalid package name: must be a non-empty string", 0, [], cache⟩
  else if (String.mk (trimChars packageName.toList)).length = 0 then
    ⟨.failure "Invalid package name: cannot be empty", 0, [], cache⟩
  else
    match (Cache.get cache now
        ("metadata:" ++ String.mk (trimChars packageName.toList))).1 with
    | some cached =>
      if jsTruthy cached && isNpmPackageMetadata cached then
        ⟨.success cached, 0, [],
          (Cache.get cache now
            ("metadata:" ++ String.mk (trimChars packageName.toList))).2⟩
      else
        fetchLoop oracle (String.mk (trimChars packageName.toList)) now
          (Cache.get cache now
            ("metadata:" ++ String.mk (trimChars packageName.toList))).2
          0 MAX_RETRIES 0 []
    | none =>
      fetchLoop oracle (String.mk (trimChars packageName.toList)) now
        (Cache.get cache now
          ("metadata:" ++ String.mk (trimChars packageName.toList))).2
        0 MAX_RETRIES 0 []

/-! ## Derived definitions used by the statements -/

/-- `isPreRelease` (src/utils/semverHelper.ts lines 159-168): parse the
sanitized version and test for prerelease identifiers. -/
def isPreRelease (version : String) : Bool :=
  match semverParse (sanitizeVersion version) with
  | none => false
  | some parsed => parsed.prerelease.length > 0

/-- Run a sequence of rate-limiter events, keeping only the final
state. -/
def execOps (s : RLState) (ops : List RLOp) : RLState :=
  ops.foldl (fun st op => (RLStep st op).1) s

/-- Total admissions at timestamps `≤ v`. -/
def admUpTo (evs : List (Nat × Nat)) (v : Nat) : Nat :=
  ((evs.filter (fun e => decide (e.1 ≤ v))).map Prod.snd).sum

/-- The token-count invariant of the rate limiter: `tokens` stays in
`[0, capacity]`. -/
def RLInv (s : RLState) : Prop :=
  0 ≤ s.tokens ∧ s.tokens ≤ (s.capacity : ℚ)

/-- Strict triple order on parsed versions: current strictly below
latest on (major, minor, patch). -/
def tripleLt (c l : SemVer) : Prop :=
  c.major < l.major
  ∨ (c.major = l.major
     ∧ (c.minor < l.minor ∨ (c.minor = l.minor ∧ c.patch < l.patch)))

/-- Modelled from the spec: "the classification is the most-significant
component (major, then minor, then patch) at which the two versions
first differ, scanning from the left". Stated for comparison against
`getUpdateType`, which is the source translation. -/
def specMostSignificantDiff (c l : SemVer) : Option UpdateType :=
  if c.major ≠ l.major then some .major
  else if c.minor ≠ l.minor then some .minor
  else if c.patch ≠ l.patch then some .patch
  else none

/-- Transient attempt outcomes in the sense of §4.2: network failure,
timeout, or an unexpected (non-404, non-429, non-2xx) status. -/
def isTransientErr : AttemptResult → Bool
  | .timeoutAbort => true
  | .fetchError _ => true
  | .failStatus status _ => status ≠ 404 && status ≠ 429
  | .ok _ => false

/-- Concrete finding used by witness instantiations. -/
def wFinding : Finding :=
  ⟨Severity.info, "m", none, none, [], []⟩

/-- A healthy analyzer producing one finding. -/
def wGood : Analyzer :=
  ⟨"good", fun _ => .fulfilled (.success [wFinding])⟩

/-- An analyzer whose promise rejects. -/
def wBad : Analyzer :=
  ⟨"bad", fun _ => .rejected "boom"⟩

/-- A minimal analysis context. -/
def wCtx : AnalysisContext :=
  ⟨⟨[], []⟩, [], [], ""⟩

/-! ## Shared lemmas: folds and association lists -/

theorem foldl_append_eq {α β : Type} (f : α → List β) :
    ∀ (l : List α) (acc : List β),
      l.foldl (fun acc a => acc ++ f a) acc = acc ++ (l.map f).flatten := by
  intro l
  induction l with
  | nil => intro acc; simp
  | cons a t ih => intro acc; simp [ih]

theorem lookup_setKey_self {α : Type} (l : List (String × α)) (k : String)
    (v : α) : lookupKey (setKey l k v) k = some v := by
  induction l with
  | nil => simp [setKey, lookupKey]
  | cons hd t ih =>
    obtain ⟨k', v'⟩ := hd
    by_cases h : k' = k
    · simp [setKey, h, lookupKey]
    · simp [setKey, h, lookupKey, ih]

theorem lookup_setKey_ne {α : Type} (l : List (String × α)) (k k' : String)
    (v : α) (h : k' ≠ k) :
    lookupKey (setKey l k v) k' = lookupKey l k' := by
  induction l with
  | nil => simp [setKey, lookupKey, Ne.symm h]
  | cons hd t ih =>
    obtain ⟨k0, v0⟩ := hd
    by_cases h0 : k0 = k
    · subst h0
      simp [setKey, lookupKey, Ne.symm h]
    · simp only [setKey, if_neg h0, lookupKey]
      by_cases h1 : k0 = k'
      · simp [h1]
      · simp [h1, ih]

theorem lookup_spread_skip (b : List (String × String)) :
    ∀ (a : List (String × String)) (k : String),
      k ∉ b.map Prod.fst →
      lookupKey (spreadMerge a b) k = lookupKey a k := by
  induction b with
  | nil => intro a k _; rfl
  | cons hd t ih =>
    intro a k hk
    obtain ⟨k0, v0⟩ := hd
    simp only [List.map_cons, List.mem_cons] at hk
    push_neg at hk
    have : spreadMerge a ((k0, v0) :: t) = spreadMerge (setKey a k0 v0) t := rfl
    rw [this, ih _ k hk.2, lookup_setKey_ne _ _ _ _ hk.1]

theorem lookup_spread_devWins (b : List (String × String)) :
    ∀ (a : List (String × String)) (k v : String),
      (b.map Prod.fst).Nodup →
      lookupKey b k = some v →
      lookupKey (spreadMerge a b) k = some v := by
  induction b with
  | nil => intro a k v _ h; simp [lookupKey] at h
  | cons hd t ih =>
    intro a k v hnd hb
    obtain ⟨k0, v0⟩ := hd
    simp only [List.map_cons, List.nodup_cons] at hnd
    have hstep : spreadMerge a ((k0, v0) :: t) = spreadMerge (setKey a k0 v0) t := rfl
    by_cases h : k0 = k
    · subst h
      simp only [lookupKey, if_pos rfl] at hb
      cases hb
      rw [hstep, lookup_spread_skip t _ _ hnd.1, lookup_setKey_self]
    · simp only [lookupKey, if_neg h] at hb
      rw [hstep]
      exact ih _ k v hnd.2 hb

theorem foldl_acc_mono {α β : Type} (g : List β → α → List β)
    (hg : ∀ acc a x, x ∈ acc → x ∈ g acc a) :
    ∀ (l : List α) (acc : List β) (x : β), x ∈ acc → x ∈ l.foldl g acc := by
  intro l
  induction l with
  | nil => intro acc x hx; exact hx
  | cons a t ih => intro acc x hx; exact ih _ x (hg acc a x hx)

/-! ## C1: orchestrator partial-failure isolation -/

/-- C1: for every analyzer set and context, `runAnalyzers` completes and
equals the in-order concatenation of each analyzer's settled findings;
an analyzer that throws or returns an explicit failure contributes
exactly the empty list; and the merged count never exceeds the sum of
the individual analyzers' finding counts. -/
theorem orchestrator_partial_failure_isolation
    (analyzers : List Analyzer) (ctx : AnalysisContext) (bad : Analyzer)
    (_hmem : bad ∈ analyzers)
    (hfail : failedOutcome (bad.analyze ctx) = true) :
    runAnalyzers analyzers ctx
      = (analyzers.map (fun a => settledFindings (a.analyze ctx))).flatten
    ∧ settledFindings (bad.analyze ctx) = []
    ∧ (runAnalyzers analyzers ctx).length
        ≤ (analyzers.map
            (fun a => (settledFindings (a.analyze ctx)).length)).sum := by
  have heq : runAnalyzers analyzers ctx
      = (analyzers.map (fun a => settledFindings (a.analyze ctx))).flatten := by
    unfold runAnalyzers
    rw [foldl_append_eq]
    simp
  refine ⟨heq, ?_, ?_⟩
  · cases hb : bad.analyze ctx with
    | fulfilled v =>
      cases v with
      | success fs =>
        rw [hb] at hfail
        simp [failedOutcome] at hfail
      | failure e => simp [settledFindings]
    | rejected r => simp [settledFindings]
  · rw [heq, List.length_flatten, List.map_map]
    exact le_of_eq rfl

/-- Witness for C1 at a concrete two-analyzer run with one rejected
promise. -/
theorem orchestrator_partial_failure_isolation_witness :
    runAnalyzers [wGood, wBad] wCtx
      = ([wGood, wBad].map (fun a => settledFindings (a.analyze wCtx))).flatten
    ∧ settledFindings (wBad.analyze wCtx) = []
    ∧ (runAnalyzers [wGood, wBad] wCtx).length
        ≤ ([wGood, wBad].map
            (fun a => (settledFindings (a.analyze wCtx)).length)).sum :=
  orchestrator_partial_failure_isolation [wGood, wBad] wCtx wBad
    (List.Mem.tail _ (List.Mem.head _)) rfl

/-! ## C9: dev-side range wins the merge; conflict is flagged -/

/-- C9: when a name appears in both dependency maps with different
ranges, the merged map built by `analyzeDocument`
(`{ ...dependencies, ...devDependencies }`) holds the
development-side range, and `checkVersionConflicts` emits a distinct
warning finding for that name. -/
theorem merged_devWins_and_conflict_flagged
    (deps devDeps : List (String × String)) (name pv dv : String)
    (hnodup : (devDeps.map Prod.fst).Nodup)
    (hdep : lookupKey deps name = some pv)
    (hdev : lookupKey devDeps name = some dv)
    (hne : pv ≠ dv) :
    lookupKey (spreadMerge deps devDeps) name = some dv
    ∧ conflictFinding name pv dv ∈ checkVersionConflicts deps devDeps
    ∧ (conflictFinding name pv dv).type = Severity.warning
    ∧ (conflictFinding name pv dv).dependency = some name := by
  refine ⟨lookup_spread_devWins devDeps deps name dv hnodup hdev, ?_, rfl, rfl⟩
  unfold checkVersionConflicts
  have step : ∀ (l : List (String × String)) (acc : List Finding),
      lookupKey l name = some dv →
      conflictFinding name pv dv ∈ l.foldl
        (fun findings kv =>
          match lookupKey deps kv.1 with
          | some depVersion =>
            if depVersion ≠ kv.2 then
              findings ++ [conflictFinding kv.1 depVersion kv.2]
            else findings
          | none => findings) acc := by
    intro l
    induction l with
    | nil => intro acc h; simp [lookupKey] at h
    | cons hd t ih =>
      intro acc h
      obtain ⟨k0, v0⟩ := hd
      by_cases hk : k0 = name
      · subst hk
        simp only [lookupKey, if_pos rfl] at h
        cases h
        rw [List.foldl_cons]
        apply foldl_acc_mono
        · intro acc' a x hx
          match lookupKey deps a.1 with
          | some w => dsimp only; split <;> simp [hx]
          | none => exact hx
        · simp only [hdep, hne, if_pos, ne_eq, not_false_eq_true]
          simp
      · simp only [lookupKey, if_neg hk] at h
        rw [List.foldl_cons]
        exact ih _ h
  exact step devDeps [] hdev

/-- Witness for C9 at a concrete manifest with `a` in both maps. -/
theorem merged_devWins_and_conflict_flagged_witness :
    lookupKey (spreadMerge [("a", "^1.0.0")] [("a", "^2.0.0")]) "a"
      = some "^2.0.0"
    ∧ conflictFinding "a" "^1.0.0" "^2.0.0"
        ∈ checkVersionConflicts [("a", "^1.0.0")] [("a", "^2.0.0")]
    ∧ (conflictFinding "a" "^1.0.0" "^2.0.0").type = Severity.warning
    ∧ (conflictFinding "a" "^1.0.0" "^2.0.0").dependency = some "a" :=
  merged_devWins_and_conflict_flagged [("a", "^1.0.0")] [("a", "^2.0.0")]
    "a" "^1.0.0" "^2.0.0" (by simp) rfl rfl (by decide)

/-! ## C5: TTL semantics of the cache -/

/-- C5: a key set at time `t` reads back immediately; any `get` more
than `ttl` after insertion is absent; and no `get` or `has` ever
returns or acknowledges an entry past its expiry timestamp. -/
theorem cache_ttl_semantics {T : Type} (c : CacheState T) (t t2 : Nat)
    (key : String) (v : T) (hlate : t + c.ttl < t2) :
    (Cache.get (Cache.set c t key v) t key).1 = some v
    ∧ (Cache.get (Cache.set c t key v) t2 key).1 = none
    ∧ (∀ (d : CacheState T) (now : Nat) (k : String) (w : T),
        (Cache.get d now k).1 = some w →
        ∃ e, lookupKey d.entries k = some e ∧ e.value = w ∧ now ≤ e.expiry)
    ∧ (∀ (d : CacheState T) (now : Nat) (k : String),
        (Cache.hasKey d now k).1 = true →
        ∃ e, lookupKey d.entries k = some e ∧ now ≤ e.expiry) := by
  have hl : lookupKey (Cache.set c t key v).entries key
      = some ⟨v, t + c.ttl⟩ := by
    unfold Cache.set
    exact lookup_setKey_self _ _ _
  refine ⟨?_, ?_, ?_, ?_⟩
  · unfold Cache.get
    rw [hl]
    simp only []
    rw [if_neg (by omega : ¬ t > t + c.ttl)]
  · unfold Cache.get
    rw [hl]
    simp only []
    rw [if_pos (by omega : t2 > t + c.ttl)]
  · intro d now k w h
    unfold Cache.get at h
    cases hlk : lookupKey d.entries k with
    | none => rw [hlk] at h; simp at h
    | some e =>
      rw [hlk] at h
      dsimp only at h
      by_cases hexp : now > e.expiry
      · rw [if_pos hexp] at h
        simp at h
      · rw [if_neg hexp] at h
        simp only [Option.some.injEq] at h
        exact ⟨e, rfl, h, Nat.le_of_not_lt hexp⟩
  · intro d now k h
    unfold Cache.hasKey at h
    cases hlk : lookupKey d.entries k with
    | none => rw [hlk] at h; simp at h
    | some e =>
      rw [hlk] at h
      dsimp only at h
      by_cases hexp : now > e.expiry
      · rw [if_pos hexp] at h
        simp at h
      · exact ⟨e, rfl, Nat.le_of_not_lt hexp⟩

/-- Witness for C5 with the default one-hour TTL. -/
theorem cache_ttl_semantics_witness :
    (Cache.get (Cache.set (Cache.mkCache String 3600000 100) 0 "k" "x") 0
        "k").1 = some "x"
    ∧ (Cache.get (Cache.set (Cache.mkCache String 3600000 100) 0 "k" "x")
        3600001 "k").1 = none
    ∧ (∀ (d : CacheState String) (now : Nat) (k : String) (w : String),
        (Cache.get d now k).1 = some w →
        ∃ e, lookupKey d.entries k = some e ∧ e.value = w ∧ now ≤ e.expiry)
    ∧ (∀ (d : CacheState String) (now : Nat) (k : String),
        (Cache.hasKey d now k).1 = true →
        ∃ e, lookupKey d.entries k = some e ∧ now ≤ e.expiry) :=
  cache_ttl_semantics (Cache.mkCache String 3600000 100) 0 3600001 "k" "x"
    (by decide)

/-! ## C6: capacity eviction (corrected at capacity 0) -/

/-- C6 counterexample: at capacity 0, inserting `capacity + 1 = 1`
distinct key leaves 1 entry, not `capacity = 0`, and nothing is
evicted (`Map.keys().next().value` is `undefined` on an empty map, so
`set` skips the delete). -/
theorem cache_capacity_eviction_cex :
    Cache.size (Cache.set (Cache.mkCache String 3600000 0) 0 "a" "x") = 1
    ∧ Cache.size (Cache.set (Cache.mkCache String 3600000 0) 0 "a" "x")
        ≠ 0 := by
  refine ⟨?_, ?_⟩ <;> decide

theorem setKey_fresh {α : Type} :
    ∀ (l : List (String × α)) (k : String) (v : α),
      lookupKey l k = none → setKey l k v = l ++ [(k, v)] := by
  intro l
  induction l with
  | nil => intro k v _; rfl
  | cons hd t ih =>
    intro k v h
    obtain ⟨k0, v0⟩ := hd
    by_cases h0 : k0 = k
    · simp [lookupKey, h0] at h
    · simp only [lookupKey, if_neg h0] at h
      simp [setKey, h0, ih _ _ h]

theorem lookup_append_left_none {α : Type} :
    ∀ (l1 l2 : List (String × α)) (k : String),
      lookupKey l1 k = none →
      lookupKey (l1 ++ l2) k = lookupKey l2 k := by
  intro l1
  induction l1 with
  | nil => intro l2 k _; rfl
  | cons hd t ih =>
    intro l2 k h
    obtain ⟨k0, v0⟩ := hd
    by_cases h0 : k0 = k
    · simp [lookupKey, h0] at h
    · simp only [lookupKey, if_neg h0] at h
      simp [lookupKey, h0, ih _ _ h]

theorem lookup_map_entry_none {T : Type} (f : String × T → CacheEntry T) :
    ∀ (kvs : List (String × T)) (k : String),
      k ∉ kvs.map Prod.fst →
      lookupKey (kvs.map (fun kv => (kv.1, f kv))) k = none := by
  intro kvs
  induction kvs with
  | nil => intro k _; rfl
  | cons hd t ih =>
    intro k hk
    simp only [List.map_cons, List.mem_cons] at hk
    push_neg at hk
    simp [lookupKey, Ne.symm hk.1, ih _ hk.2]

theorem lookup_map_entry_mem {T : Type} (f : String × T → CacheEntry T) :
    ∀ (kvs : List (String × T)) (k : String) (v : T),
      (kvs.map Prod.fst).Nodup → (k, v) ∈ kvs →
      lookupKey (kvs.map (fun kv => (kv.1, f kv))) k = some (f (k, v)) := by
  intro kvs
  induction kvs with
  | nil => intro k v _ hm; simp at hm
  | cons hd t ih =>
    intro k v hnd hm
    obtain ⟨k0, v0⟩ := hd
    simp only [List.map_cons, List.nodup_cons] at hnd
    rcases List.mem_cons.1 hm with heq | htail
    · cases heq
      simp [lookupKey]
    · have hne : k0 ≠ k := by
        intro h0
        subst h0
        exact hnd.1 (List.mem_map.2 ⟨(k0, v), htail, rfl⟩)
      simp [lookupKey, hne, ih _ _ hnd.2 htail]

theorem insert_fresh_entries {T : Type} (t : Nat) :
    ∀ (kvs : List (String × T)) (c : CacheState T),
      (∀ kv ∈ kvs, lookupKey c.entries kv.1 = none) →
      (kvs.map Prod.fst).Nodup →
      c.entries.length + kvs.length ≤ c.max →
      (insertAll c t kvs).entries
          = c.entries ++ kvs.map (fun kv => (kv.1, ⟨kv.2, t + c.ttl⟩))
        ∧ (insertAll c t kvs).ttl = c.ttl
        ∧ (insertAll c t kvs).max = c.max := by
  intro kvs
  induction kvs with
  | nil => intro c _ _ _; simp [insertAll]
  | cons hd rest ih =>
    intro c hfresh hnd hlen
    obtain ⟨k, v⟩ := hd
    simp only [List.map_cons, List.nodup_cons] at hnd
    have hk : lookupKey c.entries k = none := hfresh (k, v) (List.mem_cons_self _ _)
    have hnoevict : ¬ (c.max ≤ c.entries.length ∧
        (lookupKey c.entries k).isNone = true) := by
      intro hcon
      simp only [List.length_cons] at hlen
      omega
    have hset : (Cache.set c t k v).entries
        = c.entries ++ [(k, ⟨v, t + c.ttl⟩)] := by
      unfold Cache.set
      simp only [hnoevict, if_false, if_neg hnoevict]
      exact setKey_fresh _ _ _ hk
    have hstep : insertAll c t ((k, v) :: rest)
        = insertAll (Cache.set c t k v) t rest := rfl
    have hfresh2 : ∀ kv ∈ rest,
        lookupKey (Cache.set c t k v).entries kv.1 = none := by
      intro kv hm
      rw [hset, lookup_append_left_none _ _ _ (hfresh kv (List.mem_cons_of_mem _ hm))]
      have : kv.1 ≠ k := by
        intro h0
        exact hnd.1 (h0 ▸ List.mem_map.2 ⟨kv, hm, rfl⟩)
      simp [lookupKey, Ne.symm this]
    have hlen2 : (Cache.set c t k v).entries.length + rest.length
        ≤ (Cache.set c t k v).max := by
      rw [hset]
      simp only [List.length_append, List.length_cons, List.length_nil]
      simp only [List.length_cons] at hlen
      unfold Cache.set
      simp only []
      omega
    obtain ⟨e1, e2, e3⟩ := ih (Cache.set c t k v) hfresh2 hnd.2 hlen2
    have httl : (Cache.set c t k v).ttl = c.ttl := rfl
    have hmax : (Cache.set c t k v).max = c.max := rfl
    refine ⟨?_, ?_, ?_⟩
    · rw [hstep, e1, hset, httl]
      simp [List.append_assoc]
    · rw [hstep, e2, httl]
    · rw [hstep, e3, hmax]

theorem map_fst_setKey_present {α : Type} :
    ∀ (l : List (String × α)) (k : String) (v : α) (e : α),
      lookupKey l k = some e →
      (setKey l k v).map Prod.fst = l.map Prod.fst := by
  intro l
  induction l with
  | nil => intro k v e h; simp [lookupKey] at h
  | cons hd t ih =>
    intro k v e h
    obtain ⟨k0, v0⟩ := hd
    by_cases h0 : k0 = k
    · subst h0
      simp [setKey]
    · simp only [lookupKey, if_neg h0] at h
      simp [setKey, h0, ih _ _ _ h]

/-- C6 (amended): for capacity at least 1, inserting `capacity + 1`
distinct keys into a fresh cache leaves exactly `capacity` entries with
the first-inserted key evicted and all others retained; and re-setting
an already-present key evicts nothing and updates that key's value and
expiry in place without changing the key order. The original claim
fails only at capacity 0 (see the counterexample). -/
theorem cache_capacity_eviction
    {T : Type} (ttl cap t : Nat) (k0 : String) (v0 : T)
    (mid : List (String × T)) (klast : String) (vlast : T)
    (hlen : mid.length + 1 = cap)
    (hnodup : (((k0, v0) :: (mid ++ [(klast, vlast)])).map Prod.fst).Nodup) :
    Cache.size (insertAll (Cache.mkCache T ttl cap) t
        ((k0, v0) :: (mid ++ [(klast, vlast)]))) = cap
    ∧ lookupKey (insertAll (Cache.mkCache T ttl cap) t
        ((k0, v0) :: (mid ++ [(klast, vlast)]))).entries k0 = none
    ∧ (∀ kv ∈ mid ++ [(klast, vlast)],
        lookupKey (insertAll (Cache.mkCache T ttl cap) t
          ((k0, v0) :: (mid ++ [(klast, vlast)]))).entries kv.1
          = some ⟨kv.2, t + ttl⟩)
    ∧ (∀ (c : CacheState T) (k : String) (e : CacheEntry T) (v' : T)
          (t' : Nat),
        lookupKey c.entries k = some e →
        (Cache.set c t' k v').entries.map Prod.fst
            = c.entries.map Prod.fst
          ∧ Cache.size (Cache.set c t' k v') = Cache.size c
          ∧ lookupKey (Cache.set c t' k v').entries k
              = some ⟨v', t' + c.ttl⟩
          ∧ ∀ k'' : String, k'' ≠ k →
              lookupKey (Cache.set c t' k v').entries k''
                = lookupKey c.entries k'') := by
  have hnd : (k0 :: (mid.map Prod.fst ++ [klast])).Nodup := by
    simpa using hnodup
  have hk0mem : k0 ∉ mid.map Prod.fst ++ [klast] := (List.nodup_cons.1 hnd).1
  have hk0mid : k0 ∉ mid.map Prod.fst := fun h => hk0mem (List.mem_append_left _ h)
  have hk0last : k0 ≠ klast := fun h => hk0mem (List.mem_append_right _ (by simp [h]))
  have hrestnd : (mid.map Prod.fst ++ [klast]).Nodup := (List.nodup_cons.1 hnd).2
  have hmidnd : (mid.map Prod.fst).Nodup := hrestnd.of_append_left
  have hklastmid : klast ∉ mid.map Prod.fst := by
    intro h
    exact (List.disjoint_of_nodup_append hrestnd) h (by simp)
  have hsplit : insertAll (Cache.mkCache T ttl cap) t
      ((k0, v0) :: (mid ++ [(klast, vlast)]))
      = Cache.set (insertAll (Cache.mkCache T ttl cap) t ((k0, v0) :: mid))
          t klast vlast := by
    unfold insertAll
    rw [show ((k0, v0) :: (mid ++ [(klast, vlast)]))
        = (((k0, v0) :: mid) ++ [(klast, vlast)]) from rfl]
    rw [List.foldl_append]
    rfl
  obtain ⟨hAe, hAttl, hAmax⟩ := insert_fresh_entries t ((k0, v0) :: mid)
    (Cache.mkCache T ttl cap)
    (fun kv _ => rfl)
    (by simpa using List.nodup_cons.2 ⟨hk0mid, hmidnd⟩)
    (by simp [Cache.mkCache]; omega)
  have hAe' : (insertAll (Cache.mkCache T ttl cap) t ((k0, v0) :: mid)).entries
      = (k0, (⟨v0, t + ttl⟩ : CacheEntry T))
          :: mid.map (fun kv => (kv.1, (⟨kv.2, t + ttl⟩ : CacheEntry T))) := by
    rw [hAe]
    simp [Cache.mkCache]
  have hlookKlast : lookupKey (insertAll (Cache.mkCache T ttl cap) t
      ((k0, v0) :: mid)).entries klast = none := by
    rw [hAe']
    simp only [lookupKey, if_neg hk0last]
    exact lookup_map_entry_none _ mid klast hklastmid
  have hfinal : (Cache.set (insertAll (Cache.mkCache T ttl cap) t
      ((k0, v0) :: mid)) t klast vlast).entries
      = (mid ++ [(klast, vlast)]).map
          (fun kv => (kv.1, (⟨kv.2, t + ttl⟩ : CacheEntry T))) := by
    unfold Cache.set
    have hcond : (insertAll (Cache.mkCache T ttl cap) t ((k0, v0) :: mid)).max
          ≤ (insertAll (Cache.mkCache T ttl cap) t
              ((k0, v0) :: mid)).entries.length
        ∧ (lookupKey (insertAll (Cache.mkCache T ttl cap) t
            ((k0, v0) :: mid)).entries klast).isNone = true := by
      constructor
      · rw [hAmax, hAe']
        simp [Cache.mkCache]
        omega
      · rw [hlookKlast]
        rfl
    rw [if_pos hcond, hAe']
    dsimp only
    have herase : eraseKey ((k0, (⟨v0, t + ttl⟩ : CacheEntry T))
        :: mid.map (fun kv => (kv.1, (⟨kv.2, t + ttl⟩ : CacheEntry T)))) k0
        = mid.map (fun kv => (kv.1, (⟨kv.2, t + ttl⟩ : CacheEntry T))) := by
      simp [eraseKey]
    rw [herase]
    have hset := setKey_fresh
      (mid.map (fun kv => (kv.1, (⟨kv.2, t + ttl⟩ : CacheEntry T)))) klast
      (⟨vlast, t + (insertAll (Cache.mkCache T ttl cap) t
          ((k0, v0) :: mid)).ttl⟩ : CacheEntry T)
      (lookup_map_entry_none _ mid klast hklastmid)
    rw [hset, hAttl]
    simp [Cache.mkCache]
  refine ⟨?_, ?_, ?_, ?_⟩
  · rw [hsplit]
    unfold Cache.size
    rw [hfinal]
    simp
    omega
  · rw [hsplit, hfinal]
    apply lookup_map_entry_none
    simp only [List.map_append, List.mem_append]
    push_neg
    exact ⟨hk0mid, by simp [hk0last]⟩
  · intro kv hm
    rw [hsplit, hfinal]
    have := lookup_map_entry_mem
      (fun kv => (⟨kv.2, t + ttl⟩ : CacheEntry T))
      (mid ++ [(klast, vlast)]) kv.1 kv.2
      (by simpa using hrestnd) (by simpa using hm)
    simpa using this
  · intro c k e v' t' hk
    have hcond : ¬ (c.max ≤ c.entries.length
        ∧ (lookupKey c.entries k).isNone = true) := by
      simp [hk]
    have hentries : (Cache.set c t' k v').entries
        = setKey c.entries k ⟨v', t' + c.ttl⟩ := by
      unfold Cache.set
      rw [if_neg hcond]
    have hmapfst : (Cache.set c t' k v').entries.map Prod.fst
        = c.entries.map Prod.fst := by
      rw [hentries]
      exact map_fst_setKey_present _ _ _ _ hk
    refine ⟨hmapfst, ?_, ?_, ?_⟩
    · unfold Cache.size
      have := congrArg List.length hmapfst
      simpa using this
    · rw [hentries]
      exact lookup_setKey_self _ _ _
    · intro k'' hne
      rw [hentries]
      exact lookup_setKey_ne _ _ _ _ hne

/-- Witness for C6 at capacity 2 with keys `a`, `b`, `c`. -/
theorem cache_capacity_eviction_witness :
    Cache.size (insertAll (Cache.mkCache String 3600000 2) 0
        (("a", "va") :: ([("b", "vb")] ++ [("c", "vc")]))) = 2
    ∧ lookupKey (insertAll (Cache.mkCache String 3600000 2) 0
        (("a", "va") :: ([("b", "vb")] ++ [("c", "vc")]))).entries "a" = none
    ∧ (∀ kv ∈ [("b", "vb")] ++ [("c", "vc")],
        lookupKey (insertAll (Cache.mkCache String 3600000 2) 0
          (("a", "va") :: ([("b", "vb")] ++ [("c", "vc")]))).entries kv.1
          = some ⟨kv.2, 0 + 3600000⟩)
    ∧ (∀ (c : CacheState String) (k : String) (e : CacheEntry String)
          (v' : String) (t' : Nat),
        lookupKey c.entries k = some e →
        (Cache.set c t' k v').entries.map Prod.fst
            = c.entries.map Prod.fst
          ∧ Cache.size (Cache.set c t' k v') = Cache.size c
          ∧ lookupKey (Cache.set c t' k v').entries k
              = some ⟨v', t' + c.ttl⟩
          ∧ ∀ k'' : String, k'' ≠ k →
              lookupKey (Cache.set c t' k v').entries k''
                = lookupKey c.entries k'') :=
  cache_capacity_eviction 3600000 2 0 "a" "va" [("b", "vb")] "c" "vc"
    (by decide) (by decide)

/-! ## C2: prerelease handling of the update classifier (code bug)

`sanitizeVersion` runs `semver.coerce` on its input; `coerce` (default
options) discards any prerelease suffix, so `"2.0.0-alpha.1"` is
sanitized to `"2.0.0"` before `getUpdateType` ever sees it and the
classifier reports a major update. The same slip makes `isPreRelease`
contradict its own documented example
(`isPreRelease('1.0.0-alpha.1')  // true` in src/utils/semverHelper.ts
lines 153-156). -/

/-- C2 evaluated at the claim's input: the code classifies the
prerelease `2.0.0-alpha.1` as a major update over `1.0.0` instead of
returning the no-update value, because `sanitizeVersion` coerces the
prerelease away; `isPreRelease` likewise returns `false` against its
own doc comment. -/
theorem getUpdateType_prerelease_bug :
    getUpdateType "1.0.0" "2.0.0-alpha.1" = some UpdateType.major
    ∧ sanitizeVersion "2.0.0-alpha.1" = "2.0.0"
    ∧ isPreRelease "1.0.0-alpha.1" = false := by
  refine ⟨?_, ?_, ?_⟩ <;> decide

/-! ## C8: update classification by most-significant differing component -/

theorem compareSemVer_lt_iff (c l : SemVer) (hc : c.prerelease = [])
    (hl : l.prerelease = []) :
    compareSemVer c l = Cmp.lt ↔ tripleLt c l := by
  unfold compareSemVer cmpNat tripleLt
  rw [hc, hl]
  split_ifs <;> simp_all [comparePrerelease]

/-- C8: for valid, non-prerelease parses, `getUpdateType` returns the
most-significant component at which the versions first differ when
latest is strictly greater, and `null` otherwise; together with the
spec's five concrete cases. -/
theorem getUpdateType_most_significant (cur lat : String) (c l : SemVer)
    (hc : semverParse (sanitizeVersion cur) = some c)
    (hl : semverParse (sanitizeVersion lat) = some l)
    (hcpre : c.prerelease = []) (hlpre : l.prerelease = []) :
    (tripleLt c l → getUpdateType cur lat = specMostSignificantDiff c l)
    ∧ (¬ tripleLt c l → getUpdateType cur lat = none)
    ∧ getUpdateType "1.0.0" "2.0.0" = some UpdateType.major
    ∧ getUpdateType "1.0.0" "1.1.0" = some UpdateType.minor
    ∧ getUpdateType "1.0.0" "1.0.1" = some UpdateType.patch
    ∧ getUpdateType "1.0.0" "1.0.0" = none
    ∧ getUpdateType "2.0.0" "1.0.0" = none := by
  have hgu : getUpdateType cur lat
      = (if semverGte c l then none
         else if c.major < l.major then some UpdateType.major
         else if c.minor < l.minor then some UpdateType.minor
         else if c.patch < l.patch then some UpdateType.patch
         else none) := by
    unfold getUpdateType
    rw [hc, hl]
  refine ⟨?_, ?_, by decide, by decide, by decide, by decide, by decide⟩
  · intro hlt
    have hgte : semverGte c l = false := by
      unfold semverGte
      rw [(compareSemVer_lt_iff c l hcpre hlpre).2 hlt]
    rw [hgu, hgte]
    simp only [Bool.false_eq_true, if_false]
    unfold specMostSignificantDiff
    rcases hlt with h | ⟨he, h2⟩
    · simp [h, Nat.ne_of_lt h]
    · rcases h2 with h2 | ⟨he2, h3⟩
      · rw [he]
        simp [h2, Nat.ne_of_lt h2, Nat.lt_irrefl]
      · rw [he, he2]
        simp [h3, Nat.ne_of_lt h3, Nat.lt_irrefl]
  · intro hnlt
    have hgte : semverGte c l = true := by
      cases hg : semverGte c l with
      | true => rfl
      | false =>
        unfold semverGte at hg
        exact absurd ((compareSemVer_lt_iff c l hcpre hlpre).1 (by
          cases hcs : compareSemVer c l <;> rw [hcs] at hg <;> simp_all)) hnlt
    rw [hgu, hgte]
    simp

/-- Witness for C8 at `1.2.3` versus `1.4.0`. -/
theorem getUpdateType_most_significant_witness :
    (tripleLt ⟨1, 2, 3, []⟩ ⟨1, 4, 0, []⟩ →
      getUpdateType "1.2.3" "1.4.0"
        = specMostSignificantDiff ⟨1, 2, 3, []⟩ ⟨1, 4, 0, []⟩)
    ∧ (¬ tripleLt ⟨1, 2, 3, []⟩ ⟨1, 4, 0, []⟩ →
      getUpdateType "1.2.3" "1.4.0" = none)
    ∧ getUpdateType "1.0.0" "2.0.0" = some UpdateType.major
    ∧ getUpdateType "1.0.0" "1.1.0" = some UpdateType.minor
    ∧ getUpdateType "1.0.0" "1.0.1" = some UpdateType.patch
    ∧ getUpdateType "1.0.0" "1.0.0" = none
    ∧ getUpdateType "2.0.0" "1.0.0" = none :=
  getUpdateType_most_significant "1.2.3" "1.4.0" ⟨1, 2, 3, []⟩ ⟨1, 4, 0, []⟩
    (by decide) (by decide) rfl rfl

/-! ## C4 and C7: registry-client retry and caching behaviour -/

theorem fetchLoop_notFound (oracle : Nat → AttemptResult)
    (name : String) (now : Nat) (cache : CacheState JsonValue)
    (attempt r made : Nat) (delays : List Nat) (st : String)
    (h : oracle attempt = .failStatus 404 st) :
    fetchLoop oracle name now cache attempt (r + 1) made delays
      = ⟨.failure ("Package \"" ++ name ++ "\" not found in NPM registry"),
          made + 1, delays, cache⟩ := by
  conv_lhs => unfold fetchLoop
  rw [h]
  dsimp only
  rw [if_pos rfl]

theorem fetchLoop_transient_step (oracle : Nat → AttemptResult)
    (name : String) (now : Nat) (cache : CacheState JsonValue)
    (attempt r made : Nat) (delays : List Nat)
    (hT : isTransientErr (oracle attempt) = true)
    (hlt : attempt < MAX_RETRIES - 1) :
    fetchLoop oracle name now cache attempt (r + 1) made delays
      = fetchLoop oracle name now cache (attempt + 1) r (made + 1)
          (delays ++ [backoffMs RETRY_DELAY_MS attempt]) := by
  cases ho : oracle attempt with
  | ok body => rw [ho] at hT; simp [isTransientErr] at hT
  | failStatus status st =>
    rw [ho] at hT
    simp only [isTransientErr, Bool.and_eq_true, decide_eq_true_eq] at hT
    conv_lhs => unfold fetchLoop
    rw [ho]
    dsimp only
    rw [if_neg hT.1, if_neg hT.2, if_pos hlt]
  | timeoutAbort =>
    conv_lhs => unfold fetchLoop
    rw [ho]
    dsimp only
    rw [if_pos hlt]
  | fetchError msg =>
    conv_lhs => unfold fetchLoop
    rw [ho]
    dsimp only
    rw [if_pos hlt]

theorem fetchLoop_transient_last (oracle : Nat → AttemptResult)
    (name : String) (now : Nat) (cache : CacheState JsonValue)
    (attempt r made : Nat) (delays : List Nat)
    (hT : isTransientErr (oracle attempt) = true)
    (hge : ¬ attempt < MAX_RETRIES - 1) :
    ∃ msg, fetchLoop oracle name now cache attempt (r + 1) made delays
      = ⟨.failure msg, made + 1, delays, cache⟩ := by
  cases ho : oracle attempt with
  | ok body => rw [ho] at hT; simp [isTransientErr] at hT
  | failStatus status st =>
    rw [ho] at hT
    simp only [isTransientErr, Bool.and_eq_true, decide_eq_true_eq] at hT
    refine ⟨"HTTP " ++ toString status ++ ": " ++ st ++ " for package "
      ++ name, ?_⟩
    conv_lhs => unfold fetchLoop
    rw [ho]
    dsimp only
    rw [if_neg hT.1, if_neg hT.2, if_neg hge]
  | timeoutAbort =>
    refine ⟨"Timeout: NPM registry did not respond within 5000ms for "
      ++ name, ?_⟩
    conv_lhs => unfold fetchLoop
    rw [ho]
    dsimp only
    rw [if_neg hge]
  | fetchError msg =>
    refine ⟨"Error fetching NPM registry data for " ++ name ++ ": "
      ++ msg, ?_⟩
    conv_lhs => unfold fetchLoop
    rw [ho]
    dsimp only
    rw [if_neg hge]

theorem fetchLoop_attempts_mono (oracle : Nat → AttemptResult)
    (name : String) (now : Nat) :
    ∀ (remaining attempt made : Nat) (delays : List Nat)
      (cache : CacheState JsonValue),
      made ≤ (fetchLoop oracle name now cache attempt remaining made
        delays).attemptsMade := by
  intro remaining
  induction remaining with
  | zero => intro attempt made delays cache; exact Nat.le_refl _
  | succ r ih =>
    intro attempt made delays cache
    unfold fetchLoop
    cases ho : oracle attempt with
    | ok body =>
      dsimp only
      split <;> exact Nat.le_succ _
    | failStatus status st =>
      dsimp only
      split
      · exact Nat.le_succ _
      · split
        · exact Nat.le_trans (Nat.le_succ _) (ih _ _ _ _)
        · split
          · exact Nat.le_trans (Nat.le_succ _) (ih _ _ _ _)
          · exact Nat.le_succ _
    | timeoutAbort =>
      dsimp only
      split
      · exact Nat.le_trans (Nat.le_succ _) (ih _ _ _ _)
      · exact Nat.le_succ _
    | fetchError msg =>
      dsimp only
      split
      · exact Nat.le_trans (Nat.le_succ _) (ih _ _ _ _)
      · exact Nat.le_succ _

theorem fetchLoop_attempts_pos (oracle : Nat → AttemptResult)
    (name : String) (now : Nat) (r attempt made : Nat) (delays : List Nat)
    (cache : CacheState JsonValue) :
    made + 1 ≤ (fetchLoop oracle name now cache attempt (r + 1) made
      delays).attemptsMade := by
  unfold fetchLoop
  cases ho : oracle attempt with
  | ok body =>
    dsimp only
    split <;> exact Nat.le_refl _
  | failStatus status st =>
    dsimp only
    split
    · exact Nat.le_refl _
    · split
      · exact fetchLoop_attempts_mono _ _ _ _ _ _ _ _
      · split
        · exact fetchLoop_attempts_mono _ _ _ _ _ _ _ _
        · exact Nat.le_refl _
  | timeoutAbort =>
    dsimp only
    split
    · exact fetchLoop_attempts_mono _ _ _ _ _ _ _ _
    · exact Nat.le_refl _
  | fetchError msg =>
    dsimp only
    split
    · exact fetchLoop_attempts_mono _ _ _ _ _ _ _ _
    · exact Nat.le_refl _

theorem fetch_reduces_to_loop (name : String) (cache : CacheState JsonValue)
    (now : Nat) (oracle : Nat → AttemptResult)
    (hname : trimChars name.toList ≠ [])
    (hmiss : lookupKey cache.entries
      ("metadata:" ++ String.mk (trimChars name.toList)) = none) :
    fetchPackageMetadata name cache now oracle
      = fetchLoop oracle (String.mk (trimChars name.toList)) now cache
          0 (2 + 1) 0 [] := by
  have h1 : ¬ name = "" := by
    intro h
    apply hname
    rw [h]
    rfl
  have h2 : ¬ (String.mk (trimChars name.toList)).length = 0 := by
    intro h
    exact hname (List.length_eq_zero.1 h)
  have hc : Cache.get cache now
      ("metadata:" ++ String.mk (trimChars name.toList)) = (none, cache) := by
    unfold Cache.get
    rw [hmiss]
  unfold fetchPackageMetadata
  rw [if_neg h1, if_neg h2, hc]
  rfl

/-- C4: a 404 on the first attempt yields a permanent not-found failure
after exactly one network attempt with no backoff delay; a run of
transient errors (network failure, timeout, unexpected status) is
retried with exponential backoff `base * 2 ^ attempt` until the 3
attempts are exhausted, then fails. -/
theorem fetch_notFound_no_retry_transient_backoff
    (name : String) (cache : CacheState JsonValue) (now : Nat)
    (hname : trimChars name.toList ≠ [])
    (hmiss : lookupKey cache.entries
      ("metadata:" ++ String.mk (trimChars name.toList)) = none) :
    (∀ (oracle : Nat → AttemptResult) (st : String),
      oracle 0 = .failStatus 404 st →
      (fetchPackageMetadata name cache now oracle).result
          = .failure ("Package \"" ++ String.mk (trimChars name.toList)
              ++ "\" not found in NPM registry")
        ∧ (fetchPackageMetadata name cache now oracle).attemptsMade = 1
        ∧ (fetchPackageMetadata name cache now oracle).delays = [])
    ∧ (∀ oracle : Nat → AttemptResult,
        (∀ i, i < MAX_RETRIES → isTransientErr (oracle i) = true) →
        (∃ msg, (fetchPackageMetadata name cache now oracle).result
            = .failure msg)
          ∧ (fetchPackageMetadata name cache now oracle).attemptsMade = 3
          ∧ (fetchPackageMetadata name cache now oracle).delays
              = [RETRY_DELAY_MS * 2 ^ 0, RETRY_DELAY_MS * 2 ^ 1]) := by
  constructor
  · intro oracle st h404
    rw [fetch_reduces_to_loop name cache now oracle hname hmiss,
      fetchLoop_notFound oracle _ now cache 0 2 0 [] st h404]
    exact ⟨rfl, rfl, rfl⟩
  · intro oracle hT
    have hchain : fetchPackageMetadata name cache now oracle
        = fetchLoop oracle (String.mk (trimChars name.toList)) now cache
            2 (0 + 1) 2 [backoffMs RETRY_DELAY_MS 0,
              backoffMs RETRY_DELAY_MS 1] := by
      rw [fetch_reduces_to_loop name cache now oracle hname hmiss,
        fetchLoop_transient_step oracle _ now cache 0 2 0 []
          (hT 0 (by decide)) (by decide),
        fetchLoop_transient_step oracle _ now cache 1 1 1 _
          (hT 1 (by decide)) (by decide)]
      rfl
    obtain ⟨msg, hmsg⟩ := fetchLoop_transient_last oracle
      (String.mk (trimChars name.toList)) now cache 2 0 2
      [backoffMs RETRY_DELAY_MS 0, backoffMs RETRY_DELAY_MS 1]
      (hT 2 (by decide)) (by decide)
    rw [hchain, hmsg]
    exact ⟨⟨msg, rfl⟩, rfl, rfl⟩

/-- Witness for C4 against an empty cache and explicit oracles. -/
theorem fetch_notFound_no_retry_transient_backoff_witness :
    (∀ (oracle : Nat → AttemptResult) (st : String),
      oracle 0 = .failStatus 404 st →
      (fetchPackageMetadata "react" (Cache.mkCache JsonValue 3600000 200) 5
            oracle).result
          = .failure ("Package \"" ++ String.mk (trimChars "react".toList)
              ++ "\" not found in NPM registry")
        ∧ (fetchPackageMetadata "react" (Cache.mkCache JsonValue 3600000 200)
            5 oracle).attemptsMade = 1
        ∧ (fetchPackageMetadata "react" (Cache.mkCache JsonValue 3600000 200)
            5 oracle).delays = [])
    ∧ (∀ oracle : Nat → AttemptResult,
        (∀ i, i < MAX_RETRIES → isTransientErr (oracle i) = true) →
        (∃ msg, (fetchPackageMetadata "react"
            (Cache.mkCache JsonValue 3600000 200) 5 oracle).result
            = .failure msg)
          ∧ (fetchPackageMetadata "react"
              (Cache.mkCache JsonValue 3600000 200) 5 oracle).attemptsMade = 3
          ∧ (fetchPackageMetadata "react"
              (Cache.mkCache JsonValue 3600000 200) 5 oracle).delays
              = [RETRY_DELAY_MS * 2 ^ 0, RETRY_DELAY_MS * 2 ^ 1]) :=
  fetch_notFound_no_retry_transient_backoff "react"
    (Cache.mkCache JsonValue 3600000 200) 5 (by decide) rfl

/-- C7: a successful response with a malformed body fails without
caching anything — the cache is returned unchanged, the key stays
absent, and a later call for the same name goes back to the network
(at least one fresh attempt). -/
theorem fetch_malformed_not_cached
    (name : String) (cache : CacheState JsonValue) (now : Nat)
    (oracle : Nat → AttemptResult) (body : JsonValue)
    (hname : trimChars name.toList ≠ [])
    (hmiss : lookupKey cache.entries
      ("metadata:" ++ String.mk (trimChars name.toList)) = none)
    (hok : oracle 0 = .ok body)
    (hbad : isNpmPackageMetadata body = false) :
    (fetchPackageMetadata name cache now oracle).result
        = .failure ("Invalid metadata format for package "
            ++ String.mk (trimChars name.toList))
    ∧ (fetchPackageMetadata name cache now oracle).cache = cache
    ∧ lookupKey (fetchPackageMetadata name cache now oracle).cache.entries
        ("metadata:" ++ String.mk (trimChars name.toList)) = none
    ∧ (∀ (now2 : Nat) (oracle2 : Nat → AttemptResult),
        1 ≤ (fetchPackageMetadata name
            (fetchPackageMetadata name cache now oracle).cache
            now2 oracle2).attemptsMade) := by
  have hloop : fetchPackageMetadata name cache now oracle
      = ⟨.failure ("Invalid metadata format for package "
            ++ String.mk (trimChars name.toList)), 1, [], cache⟩ := by
    rw [fetch_reduces_to_loop name cache now oracle hname hmiss]
    unfold fetchLoop
    rw [hok]
    simp only [hbad, Bool.false_eq_true, if_false]
  refine ⟨by rw [hloop], by rw [hloop], by rw [hloop]; exact hmiss, ?_⟩
  intro now2 oracle2
  rw [hloop]
  show 1 ≤ (fetchPackageMetadata name cache now2 oracle2).attemptsMade
  rw [fetch_reduces_to_loop name cache now2 oracle2 hname hmiss]
  exact fetchLoop_attempts_pos oracle2 _ now2 2 0 0 [] cache

/-- Witness for C7: an empty-object body fails the shape check. -/
theorem fetch_malformed_not_cached_witness :
    (fetchPackageMetadata "react" (Cache.mkCache JsonValue 3600000 200) 5
        (fun _ => .ok (JsonValue.obj []))).result
        = .failure ("Invalid metadata format for package "
            ++ String.mk (trimChars "react".toList))
    ∧ (fetchPackageMetadata "react" (Cache.mkCache JsonValue 3600000 200) 5
        (fun _ => .ok (JsonValue.obj []))).cache
        = Cache.mkCache JsonValue 3600000 200
    ∧ lookupKey (fetchPackageMetadata "react"
        (Cache.mkCache JsonValue 3600000 200) 5
        (fun _ => .ok (JsonValue.obj []))).cache.entries
        ("metadata:" ++ String.mk (trimChars "react".toList)) = none
    ∧ (∀ (now2 : Nat) (oracle2 : Nat → AttemptResult),
        1 ≤ (fetchPackageMetadata "react"
            (fetchPackageMetadata "react"
              (Cache.mkCache JsonValue 3600000 200) 5
              (fun _ => .ok (JsonValue.obj []))).cache
            now2 oracle2).attemptsMade) :=
  fetch_malformed_not_cached "react" (Cache.mkCache JsonValue 3600000 200) 5
    (fun _ => .ok (JsonValue.obj [])) (JsonValue.obj [])
    (by decide) rfl rfl rfl

/-! ## C10: the rate limiter's token count stays in [0, capacity] -/

theorem processQueueLoop_anatomy (n : Nat) :
    ∀ t : ℚ,
      (processQueueLoop n t).2.1 = t - ((processQueueLoop n t).2.2 : ℚ)
      ∧ (0 ≤ t → 0 ≤ (processQueueLoop n t).2.1)
      ∧ (processQueueLoop n t).2.1 ≤ t := by
  induction n with
  | zero => intro t; refine ⟨by simp [processQueueLoop], fun h => h, le_refl t⟩
  | succ n ih =>
    intro t
    unfold processQueueLoop
    by_cases h : 1 ≤ t
    · rw [if_pos h]
      obtain ⟨e1, e2, e3⟩ := ih (t - 1)
      dsimp only
      refine ⟨?_, ?_, ?_⟩
      · rw [e1]
        push_cast
        ring
      · intro _
        exact e2 (by linarith)
      · linarith
    · rw [if_neg h]
      exact ⟨by simp, fun h0 => h0, le_refl t⟩

theorem refillRate_nonneg (cap : Nat) : 0 ≤ refillRate cap := by
  unfold refillRate
  positivity

theorem RLInv_refill (s : RLState) (now : Nat) (h : RLInv s) :
    RLInv (s.refill now) := by
  obtain ⟨h0, _⟩ := h
  unfold RLState.refill RLInv
  constructor
  · apply le_min
    · positivity
    · have : 0 ≤ ((now - s.lastRefill : Nat) : ℚ) * refillRate s.capacity :=
        mul_nonneg (by positivity) (refillRate_nonneg _)
      linarith
  · exact min_le_left _ _

/-- C10: `refill`, both paths of `acquire`, the queue-processing tick,
`availableTokens` and `reset` all preserve `0 ≤ tokens ≤ capacity`, any
event sequence preserves it, and `availableTokens()` never reports a
value above `capacity` (or below zero, trivially in ℕ). -/
theorem rateLimiter_tokens_in_range (s : RLState) (hinv : RLInv s) :
    (∀ now, RLInv (s.refill now))
    ∧ (∀ op : RLOp, RLInv (RLStep s op).1)
    ∧ (∀ now, RLInv (s.reset now))
    ∧ (∀ now, 0 ≤ (s.availableTokens now).1
        ∧ (s.availableTokens now).1 ≤ s.capacity)
    ∧ (∀ ops : List RLOp, RLInv (execOps s ops)) := by
  have hstep : ∀ (st : RLState) (op : RLOp), RLInv st → RLInv (RLStep st op).1 := by
    intro st op hst
    cases op with
    | acquire now =>
      obtain ⟨r0, r1⟩ := RLInv_refill st now hst
      unfold RLStep RLState.acquire
      dsimp only
      by_cases h : 1 ≤ (st.refill now).tokens
      · rw [if_pos h]
        exact ⟨(by linarith : (0:ℚ) ≤ (st.refill now).tokens - 1),
          (by linarith : (st.refill now).tokens - 1
            ≤ ((st.refill now).capacity : ℚ))⟩
      · rw [if_neg h]
        exact ⟨r0, r1⟩
    | tick now =>
      obtain ⟨r0, r1⟩ := RLInv_refill st now hst
      unfold RLStep RLState.tick
      dsimp only
      obtain ⟨e1, e2, e3⟩ := processQueueLoop_anatomy
        (st.refill now).queueLen (st.refill now).tokens
      exact ⟨e2 r0, le_trans e3 r1⟩
    | avail now =>
      unfold RLStep RLState.availableTokens
      dsimp only
      exact RLInv_refill st now hst
  refine ⟨fun now => RLInv_refill s now hinv,
    fun op => hstep s op hinv, ?_, ?_, ?_⟩
  · intro now
    unfold RLState.reset RLInv
    exact ⟨by positivity, le_refl _⟩
  · intro now
    refine ⟨Nat.zero_le _, ?_⟩
    obtain ⟨r0, r1⟩ := RLInv_refill s now hinv
    unfold RLState.availableTokens floorToNat
    dsimp only
    have hfloor : ⌊(s.refill now).tokens⌋ ≤ ((s.refill now).capacity : ℤ) := by
      have := Int.floor_le_floor r1
      rwa [Int.floor_natCast] at this
    have hcap : (s.refill now).capacity = s.capacity := rfl
    calc (⌊(s.refill now).tokens⌋).toNat
        ≤ (((s.refill now).capacity : ℤ)).toNat := Int.toNat_le_toNat hfloor
      _ = s.capacity := by rw [hcap]; exact Int.toNat_natCast _
  · intro ops
    induction ops generalizing s with
    | nil => exact hinv
    | cons op rest ih =>
      have h1 : RLInv (RLStep s op).1 := hstep s op hinv
      have : execOps s (op :: rest) = execOps (RLStep s op).1 rest := rfl
      rw [this]
      exact ih _ h1

/-- Witness for C10 at a freshly constructed 100-per-minute limiter. -/
theorem rateLimiter_tokens_in_range_witness :
    (∀ now, RLInv ((RateLimiter.init 100 0).refill now))
    ∧ (∀ op : RLOp, RLInv (RLStep (RateLimiter.init 100 0) op).1)
    ∧ (∀ now, RLInv ((RateLimiter.init 100 0).reset now))
    ∧ (∀ now, 0 ≤ ((RateLimiter.init 100 0).availableTokens now).1
        ∧ ((RateLimiter.init 100 0).availableTokens now).1
            ≤ (RateLimiter.init 100 0).capacity)
    ∧ (∀ ops : List RLOp, RLInv (execOps (RateLimiter.init 100 0) ops)) :=
  rateLimiter_tokens_in_range (RateLimiter.init 100 0)
    ⟨by norm_num [RateLimiter.init], by norm_num [RateLimiter.init]⟩

/-! ## C3: admissions within a rolling window (corrected)

A full bucket admits `capacity` operations instantly and refill then
adds `elapsed * capacity / 60000` more within the same rolling window,
so a window shorter than one minute can see up to
`capacity + floor(W * refillRate)` admissions — more than `capacity`.
The provable bound is the standard token-bucket inequality. -/

theorem RLStep_anatomy (s : RLState) (op : RLOp)
    (hle : s.lastRefill ≤ op.time) (h0 : 0 ≤ s.tokens) :
    (RLStep s op).1.capacity = s.capacity
    ∧ (RLStep s op).1.lastRefill = op.time
    ∧ 0 ≤ (RLStep s op).1.tokens
    ∧ ((RLStep s op).2 : ℚ) + (RLStep s op).1.tokens
        = min ((s.capacity : ℚ))
            (s.tokens + ((op.time : ℚ) - (s.lastRefill : ℚ))
              * refillRate s.capacity) := by
  cases op with
  | acquire now =>
    have hleN : s.lastRefill ≤ now := hle
    have hcast : ((now - s.lastRefill : Nat) : ℚ)
        = (now : ℚ) - (s.lastRefill : ℚ) := Nat.cast_sub hleN
    have hrt : (s.refill now).tokens = min ((s.capacity : ℚ))
        (s.tokens + ((now : ℚ) - (s.lastRefill : ℚ))
          * refillRate s.capacity) := by
      show min _ _ = _
      rw [hcast]
    have h0' : 0 ≤ (s.refill now).tokens := by
      rw [hrt]
      refine le_min (by positivity) ?_
      have hmn : 0 ≤ ((now : ℚ) - (s.lastRefill : ℚ))
          * refillRate s.capacity :=
        mul_nonneg (by
          have : ((s.lastRefill : ℚ)) ≤ (now : ℚ) := by exact_mod_cast hleN
          linarith) (refillRate_nonneg _)
      linarith
    unfold RLStep RLState.acquire
    dsimp only
    by_cases h : 1 ≤ (s.refill now).tokens
    · rw [if_pos h]
      refine ⟨rfl, rfl,
        (by linarith : (0:ℚ) ≤ (s.refill now).tokens - 1), ?_⟩
      show ((1 : Nat) : ℚ) + ((s.refill now).tokens - 1) = _
      simp only [RLOp.time]
      rw [← hrt]
      push_cast
      ring
    · rw [if_neg h]
      refine ⟨rfl, rfl, h0', ?_⟩
      show ((0 : Nat) : ℚ) + (s.refill now).tokens = _
      simp only [RLOp.time]
      rw [← hrt]
      push_cast
      ring
  | tick now =>
    have hleN : s.lastRefill ≤ now := hle
    have hcast : ((now - s.lastRefill : Nat) : ℚ)
        = (now : ℚ) - (s.lastRefill : ℚ) := Nat.cast_sub hleN
    have hrt : (s.refill now).tokens = min ((s.capacity : ℚ))
        (s.tokens + ((now : ℚ) - (s.lastRefill : ℚ))
          * refillRate s.capacity) := by
      show min _ _ = _
      rw [hcast]
    have h0' : 0 ≤ (s.refill now).tokens := by
      rw [hrt]
      refine le_min (by positivity) ?_
      have hmn : 0 ≤ ((now : ℚ) - (s.lastRefill : ℚ))
          * refillRate s.capacity :=
        mul_nonneg (by
          have : ((s.lastRefill : ℚ)) ≤ (now : ℚ) := by exact_mod_cast hleN
          linarith) (refillRate_nonneg _)
      linarith
    obtain ⟨e1, e2, _⟩ := processQueueLoop_anatomy
      (s.refill now).queueLen (s.refill now).tokens
    unfold RLStep RLState.tick
    dsimp only
    refine ⟨rfl, rfl, e2 h0', ?_⟩
    simp only [RLOp.time]
    rw [e1, ← hrt]
    ring
  | avail now =>
    have hleN : s.lastRefill ≤ now := hle
    have hcast : ((now - s.lastRefill : Nat) : ℚ)
        = (now : ℚ) - (s.lastRefill : ℚ) := Nat.cast_sub hleN
    have hrt : (s.refill now).tokens = min ((s.capacity : ℚ))
        (s.tokens + ((now : ℚ) - (s.lastRefill : ℚ))
          * refillRate s.capacity) := by
      show min _ _ = _
      rw [hcast]
    have h0' : 0 ≤ (s.refill now).tokens := by
      rw [hrt]
      refine le_min (by positivity) ?_
      have hmn : 0 ≤ ((now : ℚ) - (s.lastRefill : ℚ))
          * refillRate s.capacity :=
        mul_nonneg (by
          have : ((s.lastRefill : ℚ)) ≤ (now : ℚ) := by exact_mod_cast hleN
          linarith) (refillRate_nonneg _)
      linarith
    unfold RLStep RLState.availableTokens
    dsimp only
    refine ⟨rfl, rfl, h0', ?_⟩
    show ((0 : Nat) : ℚ) + (s.refill now).tokens = _
    simp only [RLOp.time]
    rw [← hrt]
    push_cast
    ring

theorem admEvents_cons (s : RLState) (op : RLOp) (rest : List RLOp) :
    admEvents s (op :: rest)
      = (op.time, (RLStep s op).2) :: admEvents (RLStep s op).1 rest := rfl

theorem admUpTo_cons (t k v : Nat) (evs : List (Nat × Nat)) :
    admUpTo ((t, k) :: evs) v
      = (if t ≤ v then k else 0) + admUpTo evs v := by
  unfold admUpTo
  rw [List.filter_cons]
  by_cases h : t ≤ v
  · rw [if_pos (by simp [h]), if_pos h, List.map_cons, List.sum_cons]
  · rw [if_neg (by simp [h]), if_neg h, Nat.zero_add]

theorem admissionsIn_cons (t k u v : Nat) (evs : List (Nat × Nat)) :
    admissionsIn ((t, k) :: evs) u v
      = (if u ≤ t ∧ t ≤ v then k else 0) + admissionsIn evs u v := by
  unfold admissionsIn
  rw [List.filter_cons]
  by_cases h : u ≤ t ∧ t ≤ v
  · rw [if_pos (by simp [h.1, h.2]), if_pos h, List.map_cons, List.sum_cons]
  · rw [if_neg (by
      intro hcon
      simp only [Bool.and_eq_true, decide_eq_true_eq] at hcon
      exact h hcon), if_neg h, Nat.zero_add]

theorem admUpTo_all_late (v : Nat) :
    ∀ (ops : List RLOp) (s : RLState),
      (∀ op ∈ ops, v < op.time) →
      admUpTo (admEvents s ops) v = 0 := by
  intro ops
  induction ops with
  | nil => intro s _; rfl
  | cons op rest ih =>
    intro s hall
    have hv : ¬ op.time ≤ v :=
      Nat.not_le.2 (hall op (List.mem_cons_self _ _))
    unfold admEvents admUpTo
    dsimp only
    rw [List.filter_cons, if_neg (by simp [hv])]
    exact ih _ (fun o ho => hall o (List.mem_cons_of_mem _ ho))

theorem admissionsIn_le_admUpTo (u v : Nat) :
    ∀ evs : List (Nat × Nat), admissionsIn evs u v ≤ admUpTo evs v := by
  intro evs
  induction evs with
  | nil => exact Nat.le_refl 0
  | cons e rest ih =>
    unfold admissionsIn admUpTo at ih ⊢
    rw [List.filter_cons, List.filter_cons]
    by_cases h1 : e.1 ≤ v
    · by_cases h2 : u ≤ e.1
      · rw [if_pos (by simp [h1, h2]), if_pos (by simp [h1])]
        simp only [List.map_cons, List.sum_cons]
        omega
      · rw [if_neg (by simp [h2]), if_pos (by simp [h1])]
        simp only [List.map_cons, List.sum_cons]
        omega
    · rw [if_neg (by simp [h1]), if_neg (by simp [h1])]
      exact ih

theorem adm_bound_inside (v : Nat) :
    ∀ (ops : List RLOp) (s : RLState),
      0 ≤ s.tokens →
      List.Pairwise (· ≤ ·) (ops.map RLOp.time) →
      (∀ op ∈ ops, s.lastRefill ≤ op.time) →
      (admUpTo (admEvents s ops) v : ℚ)
        ≤ max 0 (s.tokens
            + ((v : ℚ) - (s.lastRefill : ℚ)) * refillRate s.capacity) := by
  intro ops
  induction ops with
  | nil =>
    intro s _ _ _
    simp [admEvents, admUpTo]
  | cons op rest ih =>
    intro s h0 hpair hstart
    rw [List.map_cons] at hpair
    obtain ⟨hpairhd, hpairtl⟩ := List.pairwise_cons.1 hpair
    obtain ⟨hcap, hlast, htok0, hsum⟩ :=
      RLStep_anatomy s op (hstart op (List.mem_cons_self _ _)) h0
    have hrestlast : ∀ o ∈ rest, (RLStep s op).1.lastRefill ≤ o.time := by
      intro o ho
      rw [hlast]
      exact hpairhd _ (List.mem_map_of_mem _ ho)
    have hrest := ih (RLStep s op).1 htok0 hpairtl hrestlast
    rw [hcap, hlast] at hrest
    by_cases hv : op.time ≤ v
    · have hcount : admUpTo (admEvents s (op :: rest)) v
          = (RLStep s op).2 + admUpTo (admEvents (RLStep s op).1 rest) v := by
        rw [admEvents_cons, admUpTo_cons, if_pos hv]
      rw [hcount]
      have hrate := refillRate_nonneg s.capacity
      have hvq : ((op.time : ℚ)) ≤ (v : ℚ) := by exact_mod_cast hv
      have hinner : (0:ℚ) ≤ (RLStep s op).1.tokens
          + ((v:ℚ) - (op.time : ℚ)) * refillRate s.capacity := by
        have := mul_nonneg (by linarith : (0:ℚ) ≤ (v:ℚ) - (op.time : ℚ))
          hrate
        linarith
      rw [max_eq_right hinner] at hrest
      have hminle : min ((s.capacity:ℚ))
            (s.tokens + ((op.time:ℚ) - (s.lastRefill:ℚ))
              * refillRate s.capacity)
          ≤ s.tokens + ((op.time:ℚ) - (s.lastRefill:ℚ))
              * refillRate s.capacity := min_le_right _ _
      have hring : ((op.time:ℚ) - (s.lastRefill:ℚ)) * refillRate s.capacity
            + ((v:ℚ) - (op.time:ℚ)) * refillRate s.capacity
          = ((v:ℚ) - (s.lastRefill:ℚ)) * refillRate s.capacity := by ring
      have hstep : (((RLStep s op).2 + admUpTo (admEvents (RLStep s op).1
            rest) v : Nat) : ℚ)
          ≤ s.tokens + ((v:ℚ) - (s.lastRefill:ℚ)) * refillRate s.capacity := by
        push_cast
        linarith
      exact le_trans hstep (le_max_right _ _)
    · have hall : ∀ o ∈ (op :: rest), v < o.time := by
        intro o ho
        rcases List.mem_cons.1 ho with heq | ho'
        · rw [heq]
          exact Nat.not_le.1 hv
        · exact lt_of_lt_of_le (Nat.not_le.1 hv)
            (hpairhd _ (List.mem_map_of_mem _ ho'))
      rw [admUpTo_all_late v (op :: rest) s hall]
      push_cast
      exact le_max_left _ _

theorem adm_bound_window (u v : Nat) :
    ∀ (ops : List RLOp) (s : RLState),
      0 ≤ s.tokens → s.tokens ≤ (s.capacity : ℚ) →
      List.Pairwise (· ≤ ·) (ops.map RLOp.time) →
      (∀ op ∈ ops, s.lastRefill ≤ op.time) →
      (∀ op ∈ ops, u ≤ op.time) →
      (admUpTo (admEvents s ops) v : ℚ)
        ≤ max 0 ((s.capacity : ℚ)
            + ((v : ℚ) - (u : ℚ)) * refillRate s.capacity) := by
  intro ops
  cases ops with
  | nil =>
    intro s _ _ _ _ _
    simp [admEvents, admUpTo]
  | cons op rest =>
    intro s h0 hcapb hpair hstart hu
    rw [List.map_cons] at hpair
    obtain ⟨hpairhd, hpairtl⟩ := List.pairwise_cons.1 hpair
    obtain ⟨hcap, hlast, htok0, hsum⟩ :=
      RLStep_anatomy s op (hstart op (List.mem_cons_self _ _)) h0
    have hrestlast : ∀ o ∈ rest, (RLStep s op).1.lastRefill ≤ o.time := by
      intro o ho
      rw [hlast]
      exact hpairhd _ (List.mem_map_of_mem _ ho)
    have hrest := adm_bound_inside v rest (RLStep s op).1 htok0 hpairtl
      hrestlast
    rw [hcap, hlast] at hrest
    by_cases hv : op.time ≤ v
    · have hcount : admUpTo (admEvents s (op :: rest)) v
          = (RLStep s op).2 + admUpTo (admEvents (RLStep s op).1 rest) v := by
        rw [admEvents_cons, admUpTo_cons, if_pos hv]
      rw [hcount]
      have hrate := refillRate_nonneg s.capacity
      have hvq : ((op.time : ℚ)) ≤ (v : ℚ) := by exact_mod_cast hv
      have huq : ((u : ℚ)) ≤ (op.time : ℚ) := by
        exact_mod_cast hu op (List.mem_cons_self _ _)
      have hinner : (0:ℚ) ≤ (RLStep s op).1.tokens
          + ((v:ℚ) - (op.time : ℚ)) * refillRate s.capacity := by
        have := mul_nonneg (by linarith : (0:ℚ) ≤ (v:ℚ) - (op.time : ℚ))
          hrate
        linarith
      rw [max_eq_right hinner] at hrest
      have hminle : min ((s.capacity:ℚ))
            (s.tokens + ((op.time:ℚ) - (s.lastRefill:ℚ))
              * refillRate s.capacity)
          ≤ (s.capacity:ℚ) := min_le_left _ _
      have hmul : ((v:ℚ) - (op.time:ℚ)) * refillRate s.capacity
          ≤ ((v:ℚ) - (u:ℚ)) * refillRate s.capacity :=
        mul_le_mul_of_nonneg_right (by linarith) hrate
      have hstep : (((RLStep s op).2 + admUpTo (admEvents (RLStep s op).1
            rest) v : Nat) : ℚ)
          ≤ (s.capacity:ℚ) + ((v:ℚ) - (u:ℚ)) * refillRate s.capacity := by
        push_cast
        linarith
      exact le_trans hstep (le_max_right _ _)
    · have hall : ∀ o ∈ (op :: rest), v < o.time := by
        intro o ho
        rcases List.mem_cons.1 ho with heq | ho'
        · rw [heq]
          exact Nat.not_le.1 hv
        · exact lt_of_lt_of_le (Nat.not_le.1 hv)
            (hpairhd _ (List.mem_map_of_mem _ ho'))
      rw [admUpTo_all_late v (op :: rest) s hall]
      push_cast
      exact le_max_left _ _

theorem adm_bound_rolling (u v : Nat) (huv : u ≤ v) :
    ∀ (ops : List RLOp) (s : RLState),
      0 ≤ s.tokens → s.tokens ≤ (s.capacity : ℚ) →
      List.Pairwise (· ≤ ·) (ops.map RLOp.time) →
      (∀ op ∈ ops, s.lastRefill ≤ op.time) →
      (admissionsIn (admEvents s ops) u v : ℚ)
        ≤ (s.capacity : ℚ) + ((v : ℚ) - (u : ℚ)) * refillRate s.capacity := by
  have hrhs : ∀ s : RLState, (0:ℚ)
      ≤ (s.capacity : ℚ) + ((v : ℚ) - (u : ℚ)) * refillRate s.capacity := by
    intro s
    have huvq : ((u:ℚ)) ≤ (v:ℚ) := by exact_mod_cast huv
    have := mul_nonneg (by linarith : (0:ℚ) ≤ (v:ℚ) - (u:ℚ))
      (refillRate_nonneg s.capacity)
    positivity
  intro ops
  induction ops with
  | nil =>
    intro s _ _ _ _
    simpa [admEvents, admissionsIn] using hrhs s
  | cons op rest ih =>
    intro s h0 hcapb hpair hstart
    by_cases hu' : u ≤ op.time
    · have hallu : ∀ o ∈ (op :: rest), u ≤ o.time := by
        intro o ho
        rcases List.mem_cons.1 ho with heq | ho'
        · rw [heq]; exact hu'
        · rw [List.map_cons] at hpair
          exact le_trans hu' ((List.pairwise_cons.1 hpair).1 _
            (List.mem_map_of_mem _ ho'))
      have h1 := adm_bound_window u v (op :: rest) s h0 hcapb hpair hstart
        hallu
      rw [max_eq_right (hrhs s)] at h1
      have h2 := admissionsIn_le_admUpTo u v (admEvents s (op :: rest))
      calc (admissionsIn (admEvents s (op :: rest)) u v : ℚ)
          ≤ (admUpTo (admEvents s (op :: rest)) v : ℚ) := by
            exact_mod_cast h2
        _ ≤ _ := h1
    · rw [List.map_cons] at hpair
      obtain ⟨hpairhd, hpairtl⟩ := List.pairwise_cons.1 hpair
      obtain ⟨hcap, hlast, htok0, hsum⟩ :=
        RLStep_anatomy s op (hstart op (List.mem_cons_self _ _)) h0
      have hrestlast : ∀ o ∈ rest, (RLStep s op).1.lastRefill ≤ o.time := by
        intro o ho
        rw [hlast]
        exact hpairhd _ (List.mem_map_of_mem _ ho)
      have hskip : admissionsIn (admEvents s (op :: rest)) u v
          = admissionsIn (admEvents (RLStep s op).1 rest) u v := by
        rw [admEvents_cons, admissionsIn_cons,
          if_neg (by
            intro hcon
            exact hu' hcon.1), Nat.zero_add]
      have hcapb' : (RLStep s op).1.tokens
          ≤ ((RLStep s op).1.capacity : ℚ) := by
        rw [hcap]
        have hk0 : (0:ℚ) ≤ ((RLStep s op).2 : ℚ) := by positivity
        have hminle : min ((s.capacity:ℚ))
              (s.tokens + ((op.time:ℚ) - (s.lastRefill:ℚ))
                * refillRate s.capacity)
            ≤ (s.capacity:ℚ) := min_le_left _ _
        linarith
      have hih := ih (RLStep s op).1 htok0 hcapb' hpairtl hrestlast
      rw [hcap] at hih
      rw [hskip]
      exact hih

/-- C3 counterexample: a limiter of capacity 2 admits 3 acquisitions at
times 0, 0 and 30000 — all inside the closed window [0, 30000], whose
length 30000 ms is shorter than capacity / refillRate = 60000 ms. -/
theorem rateLimiter_window_cex :
    admissionsIn (admEvents (RateLimiter.init 2 0)
        [RLOp.acquire 0, RLOp.acquire 0, RLOp.acquire 30000]) 0 30000 = 3
    ∧ 30000 - 0 < 60000
    ∧ 2 < 3 := by
  refine ⟨?_, by decide, by decide⟩
  norm_num [admissionsIn, admEvents, RLStep, RLState.acquire, RLState.refill,
    RateLimiter.init, refillRate, RLOp.time, min_def]

/-- C3 (amended): over any event history of a fresh limiter with
nondecreasing timestamps, the admissions inside a closed window
`[u, v]` are bounded by the token-bucket inequality
`capacity + (v - u) * refillRate`; in particular any window shorter
than one minute (`capacity / refillRate` ms) admits at most
`2 * capacity - 1` acquisitions — not `capacity`, as the initial burst
plus refill can exceed it (see the counterexample). -/
theorem rateLimiter_window_bound (cap T0 : Nat) (ops : List RLOp) (u v : Nat)
    (hpair : List.Pairwise (· ≤ ·) (ops.map RLOp.time))
    (hstart : ∀ op ∈ ops, T0 ≤ op.time)
    (huv : u ≤ v) :
    (admissionsIn (admEvents (RateLimiter.init cap T0) ops) u v : ℚ)
      ≤ (cap : ℚ) + ((v : ℚ) - (u : ℚ)) * refillRate cap
    ∧ (1 ≤ cap → v - u < 60000 →
        admissionsIn (admEvents (RateLimiter.init cap T0) ops) u v
          ≤ 2 * cap - 1) := by
  have hmain := adm_bound_rolling u v huv ops (RateLimiter.init cap T0)
    (by simp only [RateLimiter.init]; positivity) (le_refl _) hpair hstart
  have hcapr : (RateLimiter.init cap T0).capacity = cap := rfl
  rw [hcapr] at hmain
  refine ⟨hmain, ?_⟩
  intro hcap1 hwin
  have hcp : (0:ℚ) < (cap : ℚ) := by exact_mod_cast hcap1
  have h60 : ((v:ℚ) - (u:ℚ)) < 60000 := by
    have h1 : ((v - u : Nat) : ℚ) = (v:ℚ) - (u:ℚ) := Nat.cast_sub huv
    have h2 : ((v - u : Nat) : ℚ) < ((60000 : Nat) : ℚ) := by
      exact_mod_cast hwin
    rw [h1] at h2
    exact_mod_cast h2
  have hlt : ((v:ℚ) - (u:ℚ)) * refillRate cap < (cap : ℚ) := by
    unfold refillRate
    calc ((v:ℚ) - (u:ℚ)) * ((cap:ℚ) / 60000)
        < 60000 * ((cap:ℚ) / 60000) :=
          mul_lt_mul_of_pos_right h60 (by positivity)
      _ = (cap:ℚ) := by field_simp
  have hA : (admissionsIn (admEvents (RateLimiter.init cap T0) ops) u v : ℚ)
      < 2 * (cap : ℚ) := by linarith
  have hAN : admissionsIn (admEvents (RateLimiter.init cap T0) ops) u v
      < 2 * cap := by exact_mod_cast hA
  omega

/-- Witness for the amended C3 bound on a concrete history. -/
theorem rateLimiter_window_bound_witness :
    (admissionsIn (admEvents (RateLimiter.init 5 0)
        [RLOp.acquire 10, RLOp.tick 20]) 0 100 : ℚ)
      ≤ (5 : ℚ) + ((100 : ℚ) - (0 : ℚ)) * refillRate 5
    ∧ (1 ≤ 5 → 100 - 0 < 60000 →
        admissionsIn (admEvents (RateLimiter.init 5 0)
          [RLOp.acquire 10, RLOp.tick 20]) 0 100
          ≤ 2 * 5 - 1) :=
  rateLimiter_window_bound 5 0 [RLOp.acquire 10, RLOp.tick 20] 0 100
    (by decide) (by decide) (by decide)

end PkgSense
